import Mathlib

/-!
# RealmsCode telnet engine: a shallow embedding of `src/io/socket.cpp`

Bytes (`unsigned char`) are natural numbers; a `std::string`, `std::string_view`
or `std::vector<unsigned char>` is a list of bytes.  Every function below is a
transcription of the C++ function of the same name.
-/

namespace Realms

/-- A byte string (`std::string`, `std::string_view`, `std::vector<unsigned char>`). -/
abbrev Bytes := List Nat

/-! ## Constants of `<arpa/telnet.h>` and `src/include/socket.hpp` -/

abbrev IAC : Nat := 255
abbrev DONT : Nat := 254
abbrev DO : Nat := 253
abbrev WONT : Nat := 252
abbrev WILL : Nat := 251
abbrev SB : Nat := 250
abbrev GA : Nat := 249
abbrev IP : Nat := 244
abbrev NOP : Nat := 241
abbrev SE : Nat := 240
abbrev EOR : Nat := 239

abbrev TELQUAL_IS : Nat := 0
abbrev TELQUAL_SEND : Nat := 1

abbrev TELOPT_ECHO : Nat := 1
abbrev TELOPT_TTYPE : Nat := 24
abbrev TELOPT_EOR : Nat := 25
abbrev TELOPT_NAWS : Nat := 31
abbrev TELOPT_NEW_ENVIRON : Nat := 39
abbrev TELOPT_CHARSET : Nat := 42
abbrev TELOPT_MSDP : Nat := 69
abbrev TELOPT_MSSP : Nat := 70
abbrev TELOPT_COMPRESS : Nat := 85
abbrev TELOPT_COMPRESS2 : Nat := 86
abbrev TELOPT_MSP : Nat := 90
abbrev TELOPT_MXP : Nat := 91
abbrev TELOPT_GMCP : Nat := 201

abbrev ACCEPTED : Nat := 2
abbrev REJECTED : Nat := 3

abbrev MSDP_VAR : Nat := 1
abbrev MSDP_VAL : Nat := 2
abbrev MSDP_TABLE_OPEN : Nat := 3
abbrev MSDP_TABLE_CLOSE : Nat := 4
abbrev MSDP_ARRAY_OPEN : Nat := 5
abbrev MSDP_ARRAY_CLOSE : Nat := 6

abbrev CH_MXP_BEG : Nat := 0x16
abbrev CH_MXP_END : Nat := 0x04
abbrev ESC : Nat := 27

/-- The constant `MIN_PAGES` of socket.cpp. -/
abbrev MIN_PAGES : Int := 10

/-! ## `Socket::stripTelnet` (socket.cpp 502-536)

The read position `inStr + i` is the suffix of the input that starts at `i`.
The lookahead `inStr[i+1]` at the last position reads the terminating NUL of the
underlying string, hence `headD 0`. -/

/-- The inner `while` of `case SB`: advance until `IAC SE` is found (and skip
those two bytes) or the input is exhausted. -/
def skipToSE : Bytes → Bytes
  | [] => []
  | c :: rest => if c = IAC ∧ rest.headD 0 = SE then rest.drop 1 else skipToSE rest

/-- The outer `while (i < n)` of `Socket::stripTelnet`; one unit of fuel per
iteration. -/
def stripTelnetLoop : Nat → Bytes → Bytes
  | 0, _ => []
  | _ + 1, [] => []
  | fuel + 1, c :: rest =>
    if c = IAC then
      if rest.headD 0 = WILL ∨ rest.headD 0 = WONT ∨ rest.headD 0 = DO then
        stripTelnetLoop fuel (rest.drop 2)
      else if rest.headD 0 = EOR then
        stripTelnetLoop fuel (rest.drop 1)
      else if rest.headD 0 = SB then
        stripTelnetLoop fuel (skipToSE (c :: rest))
      else c :: stripTelnetLoop fuel rest
    else c :: stripTelnetLoop fuel rest

/-- `Socket::stripTelnet`: every iteration advances `i`, so `n` iterations
are enough (see `stripTelnetLoop_fuel`). -/
def stripTelnet (inStr : Bytes) : Bytes := stripTelnetLoop inStr.length inStr


/-! ## String helpers (`std::string`, `boost::algorithm`, `<cctype>`, `fmt`) -/

/-- A string literal of the source as bytes. -/
def str (lit : String) : Bytes := lit.toList.map Char.toNat

/-- Scanning for `pat` from position `i`: the worker of `std::string::find`. -/
def findFrom (pat : Bytes) : Bytes → Nat → Option Nat
  | [], i => if pat.isPrefixOf [] then some i else none
  | c :: t, i => if pat.isPrefixOf (c :: t) then some i else findFrom pat t (i + 1)

/-- `text.find(pat)`: index of the first occurrence, `none` for `npos`. -/
def find (text pat : Bytes) : Option Nat := findFrom pat text 0

/-- `isdigit(ch)` in the C locale. -/
def isdigit (ch : Nat) : Bool := 48 ≤ ch && ch ≤ 57

/-- `isalpha(ch)` in the C locale. -/
def isalpha (ch : Nat) : Bool := (65 ≤ ch && ch ≤ 90) || (97 ≤ ch && ch ≤ 122)

/-- `tolower(ch)` in the C locale. -/
def tolower (ch : Nat) : Nat := if 65 ≤ ch ∧ ch ≤ 90 then ch + 32 else ch

/-- `boost::iequals(a, b)`: equality up to ASCII case. -/
def iequals (a b : Bytes) : Bool := a.map tolower == b.map tolower

/-- `fmt::format("{}", ch)` for an `unsigned char`: fmt prints the integer
types `signed char` and `unsigned char` as decimal numbers. -/
def fmtUChar (ch : Nat) : Bytes := (Nat.toDigits 10 ch).map Char.toNat

/-! ## The data model of `Socket` (socket.hpp 130-380) -/

/-- The enum `telnetNegotiation` (socket.cpp 85-121), in declaration order. -/
inductive TState
  | NEG_NONE
  | NEG_IAC
  | NEG_WILL
  | NEG_WONT
  | NEG_DO
  | NEG_DONT
  | NEG_SB
  | NEG_START_NAWS
  | NEG_SB_NAWS_COL_HIGH
  | NEG_SB_NAWS_COL_LOW
  | NEG_SB_NAWS_ROW_HIGH
  | NEG_SB_NAWS_ROW_LOW
  | NEG_END_NAWS
  | NEG_SB_TTYPE
  | NEG_SB_TTYPE_END
  | NEG_SB_MSDP
  | NEG_SB_MSDP_END
  | NEG_SB_GMCP
  | NEG_SB_GMCP_END
  | NEG_SB_CHARSET
  | NEG_SB_CHARSET_LOOK_FOR_IAC
  | NEG_SB_CHARSET_END
  | NEG_MXP_SECURE
  | NEG_MXP_SECURE_TWO
  | NEG_MXP_SECURE_THREE
  | NEG_MXP_SECURE_FINISH
  | NEG_MXP_SECURE_CONSUME
  | NEG_UNUSED
  deriving DecidableEq, Repr

/-- The integer value of an enumerator, used by the range test
`tState > NEG_START_NAWS && tState < NEG_END_NAWS`. -/
def TState.val (t : TState) : Nat := t.toCtorIdx

/-- The struct `Socket::Term`. -/
structure Term where
  rows : Int
  cols : Int
  type : Bytes
  firstType : Bytes
  lastType : Bytes
  version : Bytes
  deriving DecidableEq, Repr

/-- The struct `Socket::SockOptions`. -/
structure SockOptions where
  dumb : Bool
  color : Int
  xterm256 : Bool
  mccp : Int
  mxp : Bool
  mxpClientSecure : Bool
  lastColor : Nat
  msdp : Bool
  eor : Bool
  msp : Bool
  compressing : Bool
  naws : Bool
  charset : Bool
  utf8 : Bool
  deriving DecidableEq, Repr

/-- Calls that leave the protocol engine: the functions called are either
the output path (`Socket::write`, embedded separately below) or functions
whose bodies are in other translation units.  The engine ignores their
results, so a call is recorded in order of occurrence. -/
inductive Effect
  | write (toWrite : Bytes) (pSpy process : Bool)
  | defineMxp
  | sendMSSP
  | msdpSend (var : Bytes)
  | processMsdpVarVal (var val : Bytes)
  | processCompressed
  | deflateEnd
  | printColor (text : Bytes)
  | print (text : Bytes)
  deriving DecidableEq, Repr

/-- The members of `Socket` that the protocol engine and the pager use.
`calls` records the outgoing calls (see `Effect`); `zlibOk` is the outcome of
the zlib entry points `deflateInit` and `deflate(Z_FINISH)`; `outCompress`
tells whether the pointer of that name is non-null. -/
structure Socket where
  term : Term
  opts : SockOptions
  tState : TState
  oneIAC : Bool
  watchBrokenClient : Bool
  cmdInBuf : Bytes
  inBuf : Bytes
  output : Bytes
  pagerOutput : List Bytes
  paged : Int
  outCompress : Bool
  zlibOk : Bool
  calls : List Effect
  deriving DecidableEq, Repr

/-- Modelled from the spec: the colour levels "none" and "ansi" of the data
model; the header defining `NO_COLOR` and `ANSI_COLOR` is not among the sources. -/
abbrev NO_COLOR : Int := 0

/-- Modelled from the spec: see `NO_COLOR`. -/
abbrev ANSI_COLOR : Int := 1

/-- `Socket::reset` (socket.cpp 201-243) on a newly constructed object. -/
def reset : Socket where
  term := { rows := 40, cols := 82, type := str "dumb", firstType := [], lastType := [],
            version := [] }
  opts := { dumb := true, color := NO_COLOR, xterm256 := false, mccp := 0, mxp := false,
            mxpClientSecure := false, lastColor := 0, msdp := false, eor := false,
            msp := false, compressing := false, naws := false, charset := false,
            utf8 := false }
  tState := .NEG_NONE
  oneIAC := false
  watchBrokenClient := false
  cmdInBuf := []
  inBuf := []
  output := []
  pagerOutput := []
  paged := 0
  outCompress := false
  zlibOk := true
  calls := []

/-- Recording one outgoing call. -/
def Socket.call (s : Socket) (e : Effect) : Socket := { s with calls := s.calls ++ [e] }

/-- A call of `Socket::write(toWrite, pSpy, process)` made by the engine. -/
def Socket.write (s : Socket) (toWrite : Bytes) (pSpy : Bool) (process : Bool) : Socket :=
  s.call (.write toWrite pSpy process)

/-! ### The byte strings of namespace `telnet` (socket.cpp 127-184) -/

def will_msdp : Bytes := [IAC, WILL, TELOPT_MSDP]
def will_mxp : Bytes := [IAC, WILL, TELOPT_MXP]
def start_mxp : Bytes := [IAC, SB, TELOPT_MXP, IAC, SE]
def will_comp2 : Bytes := [IAC, WILL, TELOPT_COMPRESS2]
def will_comp1 : Bytes := [IAC, WILL, TELOPT_COMPRESS]
def start_mccp2 : Bytes := [IAC, SB, TELOPT_COMPRESS2, IAC, SE]
def start_mccp : Bytes := [IAC, SB, TELOPT_COMPRESS, WILL, SE]
def will_eor : Bytes := [IAC, WILL, TELOPT_EOR]
def will_msp : Bytes := [IAC, WILL, TELOPT_MSP]
def will_mssp : Bytes := [IAC, WILL, TELOPT_MSSP]
def do_ttype : Bytes := [IAC, DO, TELOPT_TTYPE]
def wont_ttype : Bytes := [IAC, WONT, TELOPT_TTYPE]
def charset_utf8 : Bytes := [IAC, SB, TELOPT_CHARSET, 1, 32, 85, 84, 70, 45, 56, IAC, SE]
def query_ttype : Bytes := [IAC, SB, TELOPT_TTYPE, TELQUAL_SEND, IAC, SE]
def do_naws : Bytes := [IAC, DO, TELOPT_NAWS]
def EOR_STR : Bytes := [IAC, EOR]
def GA_STR : Bytes := [IAC, GA]


/-! ## Telnet negotiation (socket.cpp 560-587, 955-1109, 1577-1644) -/

/-- `Socket::startTelnetNeg`. -/
def startTelnetNeg (s : Socket) : Socket := s.write do_ttype false true

/-- `Socket::continueTelnetNeg`. -/
def continueTelnetNeg (s : Socket) (queryTType : Bool) : Socket :=
  let s1 := if queryTType then s.write query_ttype false true else s
  let s2 := { s1 with opts := { s1.opts with dumb := false } }
  let s3 := s2.write will_comp2 false true
  let s4 := s3.write will_comp1 false true
  let s5 := s4.write do_naws false true
  let s6 := s5.write will_msdp false true
  let s7 := s6.write will_mssp false true
  let s8 := s7.write will_msp false true
  let s9 := s8.write will_mxp false true
  s9.write will_eor false true

/-- `Socket::startCompress(silent)`; the `int` result is dropped by every
caller in the engine. -/
def startCompress (s : Socket) (silent : Bool) : Socket :=
  if s.opts.mccp = 0 then s
  else if s.opts.compressing then s
  else
    let s1 := { s with outCompress := true }
    if !s1.zlibOk then s1
    else
      let s2 :=
        if !silent then
          (if s1.opts.mccp = 2 then s1.write start_mccp2 false true
           else s1.write start_mccp false true)
        else s1
      { s2 with opts := { s2.opts with compressing := true } }

/-- `Socket::endCompress`; `processCompressed()` returns a `size_t`, so its
test `< 0` never holds. -/
def endCompress (s : Socket) : Socket :=
  if s.outCompress && s.opts.compressing then
    if !s.zlibOk then s
    else
      let s1 := s.call .processCompressed
      let s2 := s1.call .deflateEnd
      { s2 with outCompress := false,
                opts := { s2.opts with mccp := 0, compressing := false } }
  else s

/-- `Socket::negotiate(ch)`, called in one of the states NEG_WILL, NEG_WONT,
NEG_DO, NEG_DONT. -/
def negotiate (s : Socket) (ch : Nat) : Socket :=
  let isWillDo : Bool := s.tState = .NEG_WILL || s.tState = .NEG_DO
  let isWontDont : Bool := s.tState = .NEG_WONT || s.tState = .NEG_DONT
  let s1 : Socket :=
    if ch = TELOPT_CHARSET then
      if s.tState = .NEG_WILL then
        ({ s with opts := { s.opts with charset := true } }).write charset_utf8 false true
      else if s.tState = .NEG_WONT then
        { s with opts := { s.opts with charset := false } }
      else s
    else if ch = TELOPT_TTYPE then
      let s0 := { s with opts := { s.opts with color := ANSI_COLOR } }
      if s0.opts.dumb then
        if s0.tState = .NEG_WILL then continueTelnetNeg s0 true
        else if s0.tState = .NEG_WONT then
          continueTelnetNeg (s0.write wont_ttype true true) false
        else s0
      else s0
    else if ch = TELOPT_MXP then
      if isWillDo then
        let s0 := s.write start_mxp true true
        ({ s0 with opts := { s0.opts with mxp := true } }).call .defineMxp
      else if isWontDont then
        { s with opts := { s.opts with mxp := false } }
      else s
    else if ch = TELOPT_COMPRESS2 then
      if isWillDo then
        startCompress { s with opts := { s.opts with mccp := 2 } } false
      else if isWontDont then
        if s.opts.mccp = 2 then endCompress { s with opts := { s.opts with mccp := 0 } }
        else s
      else s
    else if ch = TELOPT_COMPRESS then
      if isWillDo then
        startCompress { s with opts := { s.opts with mccp := 1 } } false
      else if isWontDont then
        if s.opts.mccp = 1 then endCompress { s with opts := { s.opts with mccp := 0 } }
        else s
      else s
    else if ch = TELOPT_EOR then
      if isWillDo then { s with opts := { s.opts with eor := true } }
      else if isWontDont then { s with opts := { s.opts with eor := false } }
      else s
    else if ch = TELOPT_NAWS then
      { s with opts := { s.opts with naws := (s.tState = .NEG_WILL) } }
    else if ch = TELOPT_ECHO ∨ ch = TELOPT_NEW_ENVIRON then s
    else if ch = TELOPT_MSSP then
      if s.tState = .NEG_DO then s.call .sendMSSP else s
    else if ch = TELOPT_MSP then
      if isWillDo then { s with opts := { s.opts with msp := true } }
      else if isWontDont then { s with opts := { s.opts with msp := false } }
      else s
    else if ch = TELOPT_MSDP then
      if s.tState = .NEG_DO then
        ({ s with opts := { s.opts with msdp := true } }).call (.msdpSend (str "SERVER_ID"))
      else { s with opts := { s.opts with msdp := false } }
    else s
  { s1 with tState := .NEG_NONE }

/-- `Socket::handleNaws(colRow, chr, high)`: the new socket, the new value of
the referenced `colRow`, and the returned flag. -/
def handleNaws (s : Socket) (colRow : Int) (chr : Nat) (high : Bool) : Socket × Int × Bool :=
  let store : Int := if high then (chr : Int) * 256 else colRow + (chr : Int)
  if chr = IAC then
    if !s.oneIAC then ({ s with oneIAC := true }, colRow, false)
    else ({ s with oneIAC := false }, store, true)
  else if s.oneIAC then ({ s with oneIAC := false }, store, true)
  else (s, store, true)

/-! ## MXP-secure line (socket.cpp 1255-1312) -/

/-- The `while` of `getMxpTag`: `some run` when a terminating character is
met, `none` when the text ends first (the function then returns `""`). -/
def getMxpTagRun : Bytes → Bytes → Option Bytes
  | _, [] => none
  | acc, ch :: rest =>
    if ch = 46 ∨ isdigit ch ∨ isalpha ch then getMxpTagRun (acc ++ [ch]) rest else some acc

/-- `getMxpTag(tag, text)`. -/
def getMxpTag (tag text : Bytes) : Bytes :=
  match find text tag with
  | none => []
  | some n =>
    let rest := text.drop (n + tag.length)
    match rest with
    | [] => []
    | c :: rest1 =>
      (getMxpTagRun [] (if c = 34 then rest1 else c :: rest1)).getD []

/-- `Socket::parseMXPSecure`. -/
def parseMXPSecure (s : Socket) : Socket :=
  let s3 : Socket :=
    if s.opts.mxp then
      let toParse := s.cmdInBuf
      let client := getMxpTag (str "CLIENT=") toParse
      let s1 := if client ≠ [] then { s with term := { s.term with type := client } } else s
      let version := getMxpTag (str "VERSION=") toParse
      if version ≠ [] then
        let s2 := { s1 with term := { s1.term with version := version } }
        if iequals s2.term.type (str "mushclient") then
          { s2 with opts := { s2.opts with xterm256 := decide (¬ version < str "4.02") } }
        else if iequals s2.term.type (str "cmud") then
          { s2 with opts := { s2.opts with xterm256 := decide (¬ version < str "3.04") } }
        else if iequals s2.term.type (str "atlantis") then
          { s2 with opts := { s2.opts with xterm256 := true } }
        else s2
      else s1
    else s
  { s3 with opts := { s3.opts with mxpClientSecure := false }, cmdInBuf := [] }

/-! ## MSDP (socket.cpp 1314-1358) -/

/-- The loop of `case MSDP_VAR`: append to `var` up to the next `MSDP_VAL`. -/
def msdpVarLoop : Bytes → Bytes → Bytes × Bytes
  | var, [] => (var, [])
  | var, c :: rest =>
    if c = MSDP_VAL then (var, c :: rest) else msdpVarLoop (var ++ [c]) rest

/-- The loop of `case MSDP_VAL`: append to `val` up to an IAC or, at nesting
depth zero, up to the next `MSDP_VAR` or `MSDP_VAL`. -/
def msdpValLoop : Int → Bytes → Bytes → Int × Bytes × Bytes
  | nest, val, [] => (nest, val, [])
  | nest, val, c :: rest =>
    if c = IAC then (nest, val, c :: rest)
    else if c = MSDP_TABLE_OPEN ∨ c = MSDP_ARRAY_OPEN then
      msdpValLoop (nest + 1) (val ++ [c]) rest
    else if c = MSDP_TABLE_CLOSE ∨ c = MSDP_ARRAY_CLOSE then
      msdpValLoop (nest - 1) (val ++ [c]) rest
    else if nest = 0 ∧ (c = MSDP_VAR ∨ c = MSDP_VAL) then (nest, val, c :: rest)
    else msdpValLoop nest (val ++ [c]) rest

/-- The outer `while (i < n && cmdInBuf[i] != SE)` of `Socket::parseMsdp` on
the rest of the buffer, with the locals `var`, `val`, `nest`; the result is the
list of `processMsdpVarVal(var, val)` calls.  One unit of fuel per iteration. -/
def parseMsdpLoop : Nat → Bytes → Bytes → Bytes → Int → List (Bytes × Bytes) →
    List (Bytes × Bytes)
  | 0, _, _, _, _, acc => acc
  | _ + 1, [], _, _, _, acc => acc
  | fuel + 1, c :: rest, var, val, nest, acc =>
    if c = SE then acc
    else if c = MSDP_VAR then
      parseMsdpLoop fuel (msdpVarLoop var rest).2 (msdpVarLoop var rest).1 val nest acc
    else if c = MSDP_VAL then
      let r := msdpValLoop nest [] rest
      parseMsdpLoop fuel r.2.2 var r.2.1 r.1
        (if r.1 = 0 then acc ++ [(var, r.2.1)] else acc)
    else parseMsdpLoop fuel rest var val nest acc

/-- `Socket::parseMsdp`: every iteration of the outer loop advances `i`, so
`cmdInBuf.size()` iterations are enough. -/
def parseMsdp (s : Socket) : Socket :=
  let pairs := parseMsdpLoop s.cmdInBuf.length s.cmdInBuf [] [] 0 []
  let s1 : Socket :=
    if s.opts.msdp then
      { s with calls := s.calls ++ pairs.map (fun p => Effect.processMsdpVarVal p.1 p.2) }
    else s
  { s1 with cmdInBuf := [] }


/-! ## The state machine of `Socket::processInput` (socket.cpp 616-911) -/

/-- The test `oneIAC && tState > NEG_START_NAWS && tState < NEG_END_NAWS &&
tmpBuf[i] != IAC` that steps the index back (socket.cpp 622-626). -/
def rewinds (s : Socket) (c : Nat) : Bool :=
  s.oneIAC && decide (TState.NEG_START_NAWS.val < s.tState.val) &&
    decide (s.tState.val < TState.NEG_END_NAWS.val) && decide (c ≠ IAC)

/-- The block `if (watchBrokenClient) ...` (socket.cpp 627-637). -/
def watchStep (s : Socket) (c : Nat) : Socket :=
  if s.watchBrokenClient then
    let s1 := if s.tState = .NEG_NONE ∧ c = SE then { s with tState := .NEG_IAC } else s
    { s1 with watchBrokenClient := false }
  else s

/-- The case NEG_SB_TTYPE_END on the byte SE (socket.cpp 845-869). -/
def ttypeEnd (s : Socket) : Socket :=
  let s1 : Socket :=
    if s.term.firstType ≠ s.term.type ∧
        (s.term.lastType = [] ∨ s.term.type ≠ s.term.lastType) then
      let s0 := { s with term := { s.term with lastType := [] } }
      let s0 :=
        if (find s0.term.type (str "-256color")).isSome then
          { s0 with opts := { s0.opts with xterm256 := true } }
        else s0
      s0.write query_ttype false true
    else s
  let s2 : Socket :=
    if s1.term.firstType = [] then { s1 with term := { s1.term with firstType := s1.term.type } }
    else s1
  if (find s2.term.type (str "Mudlet")).isSome ∧ str "Mudlet 1.1" < s2.term.type then
    { s2 with opts := { s2.opts with xterm256 := true } }
  else if iequals s2.term.type (str "EMACS-RINZAI") ∨
      (find s2.term.type (str "DecafMUD")).isSome then
    { s2 with opts := { s2.opts with xterm256 := true } }
  else s2

/-- The `switch (tState)` of the loop body on the byte `c`; `tmp` is the local
string of decoded text. -/
def switchStep (s : Socket) (tmp : Bytes) (c : Nat) : Socket × Bytes :=
  match s.tState with
  | .NEG_NONE =>
    if c = IAC then ({ s with tState := .NEG_IAC }, tmp)
    else if c = ESC then ({ s with tState := .NEG_MXP_SECURE }, tmp)
    else (s, tmp ++ [c])
  | .NEG_MXP_SECURE =>
    if c = 91 then ({ s with tState := .NEG_MXP_SECURE_TWO }, tmp)
    else ({ s with tState := .NEG_NONE }, tmp ++ (str "\x1b" ++ fmtUChar c))
  | .NEG_MXP_SECURE_TWO =>
    if c = 49 then ({ s with tState := .NEG_MXP_SECURE_FINISH }, tmp)
    else ({ s with tState := .NEG_NONE }, tmp ++ (str "\x1b[" ++ fmtUChar c))
  | .NEG_MXP_SECURE_FINISH =>
    if c = 122 then
      ({ s with opts := { s.opts with mxpClientSecure := true },
                tState := .NEG_MXP_SECURE_CONSUME }, tmp)
    else ({ s with tState := .NEG_NONE }, tmp ++ (str "\x1b[1" ++ fmtUChar c))
  | .NEG_MXP_SECURE_CONSUME =>
    if c = 10 then (parseMXPSecure { s with tState := .NEG_NONE }, tmp)
    else ({ s with cmdInBuf := s.cmdInBuf ++ [c] }, tmp)
  | .NEG_IAC =>
    if c = NOP ∨ c = IP ∨ c = GA then ({ s with tState := .NEG_NONE }, tmp)
    else if c = WILL then ({ s with tState := .NEG_WILL }, tmp)
    else if c = WONT then ({ s with tState := .NEG_WONT }, tmp)
    else if c = DO then ({ s with tState := .NEG_DO }, tmp)
    else if c = DONT then ({ s with tState := .NEG_DONT }, tmp)
    else if c = SE then ({ s with tState := .NEG_NONE }, tmp)
    else if c = SB then ({ s with tState := .NEG_SB }, tmp)
    else if c = IAC then ({ s with tState := .NEG_NONE }, tmp ++ [c])
    else ({ s with tState := .NEG_NONE }, tmp)
  | .NEG_DO | .NEG_WILL | .NEG_DONT | .NEG_WONT => (negotiate s c, tmp)
  | .NEG_SB =>
    if c = TELOPT_NAWS then ({ s with tState := .NEG_SB_NAWS_COL_HIGH }, tmp)
    else if c = TELOPT_TTYPE then ({ s with tState := .NEG_SB_TTYPE }, tmp)
    else if c = TELOPT_CHARSET then
      (if s.opts.charset then { s with tState := .NEG_SB_CHARSET }
       else { s with tState := .NEG_NONE }, tmp)
    else if c = TELOPT_MSDP then ({ s with tState := .NEG_SB_MSDP }, tmp)
    else if c = TELOPT_GMCP then ({ s with tState := .NEG_SB_GMCP }, tmp)
    else ({ s with tState := .NEG_NONE }, tmp)
  | .NEG_SB_MSDP =>
    let s1 := { s with cmdInBuf := s.cmdInBuf ++ [c] }
    if c = IAC then ({ s1 with tState := .NEG_SB_MSDP_END }, tmp) else (s1, tmp)
  | .NEG_SB_MSDP_END =>
    if c = SE then ({ parseMsdp s with tState := .NEG_NONE }, tmp)
    else ({ s with cmdInBuf := s.cmdInBuf ++ [c], tState := .NEG_SB_MSDP }, tmp)
  | .NEG_SB_GMCP =>
    if c = IAC then ({ s with tState := .NEG_SB_GMCP_END }, tmp) else (s, tmp)
  | .NEG_SB_GMCP_END =>
    if c = SE then ({ s with tState := .NEG_NONE }, tmp)
    else ({ s with cmdInBuf := s.cmdInBuf ++ [c], tState := .NEG_SB_GMCP }, tmp)
  | .NEG_SB_CHARSET =>
    if c = ACCEPTED then
      ({ s with opts := { s.opts with utf8 := true },
                tState := .NEG_SB_CHARSET_LOOK_FOR_IAC }, tmp)
    else if c = REJECTED then
      ({ s with opts := { s.opts with utf8 := false },
                tState := .NEG_SB_CHARSET_LOOK_FOR_IAC }, tmp)
    else ({ s with tState := .NEG_SB_CHARSET_LOOK_FOR_IAC }, tmp)
  | .NEG_SB_CHARSET_LOOK_FOR_IAC =>
    if c = IAC then ({ s with tState := .NEG_SB_CHARSET_END }, tmp) else (s, tmp)
  | .NEG_SB_CHARSET_END =>
    if c = IAC then ({ s with tState := .NEG_SB_CHARSET_LOOK_FOR_IAC }, tmp)
    else ({ s with tState := .NEG_NONE }, tmp)
  | .NEG_SB_TTYPE =>
    if c = TELQUAL_IS then
      ({ s with term := { s.term with lastType := s.term.type, type := [] } }, tmp)
    else if c = IAC then ({ s with tState := .NEG_SB_TTYPE_END }, tmp)
    else ({ s with term := { s.term with type := s.term.type ++ [c] } }, tmp)
  | .NEG_SB_TTYPE_END =>
    if c = SE then ({ ttypeEnd s with tState := .NEG_NONE }, tmp)
    else if c = IAC then
      ({ s with term := { s.term with type := s.term.type ++ [c] },
                tState := .NEG_SB_TTYPE }, tmp)
    else ({ s with tState := .NEG_NONE }, tmp)
  | .NEG_SB_NAWS_COL_HIGH =>
    let r := handleNaws s s.term.cols c true
    let s1 : Socket := { r.1 with term := { r.1.term with cols := r.2.1 } }
    (if r.2.2 then { s1 with tState := .NEG_SB_NAWS_COL_LOW } else s1, tmp)
  | .NEG_SB_NAWS_COL_LOW =>
    let r := handleNaws s s.term.cols c false
    let s1 : Socket := { r.1 with term := { r.1.term with cols := r.2.1 } }
    (if r.2.2 then { s1 with tState := .NEG_SB_NAWS_ROW_HIGH } else s1, tmp)
  | .NEG_SB_NAWS_ROW_HIGH =>
    let r := handleNaws s s.term.rows c true
    let s1 : Socket := { r.1 with term := { r.1.term with rows := r.2.1 } }
    (if r.2.2 then { s1 with tState := .NEG_SB_NAWS_ROW_LOW } else s1, tmp)
  | .NEG_SB_NAWS_ROW_LOW =>
    let r := handleNaws s s.term.rows c false
    let s1 : Socket := { r.1 with term := { r.1.term with rows := r.2.1 } }
    (if r.2.2 then
       { (if s1.term.rows = 255 then { s1 with watchBrokenClient := true } else s1) with
         tState := .NEG_NONE }
     else s1, tmp)
  | .NEG_START_NAWS | .NEG_END_NAWS | .NEG_MXP_SECURE_THREE | .NEG_UNUSED =>
    ({ s with tState := .NEG_NONE }, tmp)

/-- One pass of the loop body on the byte `c`, after the index has been
settled: the broken-client watch, then the switch. -/
def bodyStep (st : Socket × Bytes) (c : Nat) : Socket × Bytes :=
  switchStep (watchStep st.1 c) st.2 c

/-- The read `tmpBuf[i]`: `tmpBuf[n]` is the NUL stored after the read; an
index below zero reads the indeterminate byte `pre` in front of the array. -/
def tmpBufAt (pre : Nat) (tmpBuf : Bytes) (i : Int) : Nat :=
  if i < 0 then pre else tmpBuf.getD i.toNat 0

/-- The loop `for (i = 0; i < n; i++)` from index `i` on: `none` when the fuel
runs out before the loop condition fails. -/
def processInputLoop (pre : Nat) (tmpBuf : Bytes) :
    Nat → Int → Socket × Bytes → Option (Socket × Bytes)
  | 0, i, st => if i < (tmpBuf.length : Int) then none else some st
  | fuel + 1, i, st =>
    if i < (tmpBuf.length : Int) then
      let i1 := if rewinds st.1 (tmpBufAt pre tmpBuf i) then i - 1 else i
      processInputLoop pre tmpBuf fuel (i1 + 1) (bodyStep st (tmpBufAt pre tmpBuf i1))
    else some st

/-- The state machine of `Socket::processInput` on the bytes `tmpBuf` of one
read: the socket after the loop and the decoded text `tmp` that is handed to
the line assembler.  A byte is examined at most twice, hence the fuel. -/
def processInputDecode (pre : Nat) (tmpBuf : Bytes) (s : Socket) : Option (Socket × Bytes) :=
  processInputLoop pre tmpBuf (2 * tmpBuf.length) 0 (s, [])

/-- The state "idle" of the negotiation state machine. -/
def Socket.idle (s : Socket) : Prop :=
  s.tState = .NEG_NONE ∧ s.oneIAC = false ∧ s.watchBrokenClient = false

/-- A run of the loop body over `bytes` in which the index is never stepped
back. -/
def quiet : Socket × Bytes → Bytes → Prop
  | _, [] => True
  | st, c :: cs => rewinds st.1 c = false ∧ quiet (bodyStep st c) cs

/-- The bytes that may stand inside an MSDP table or array: any byte except
IAC, inner VAR and VAL included, with TABLE_OPEN/TABLE_CLOSE and
ARRAY_OPEN/ARRAY_CLOSE properly nested. -/
inductive MsdpNested : Bytes → Prop
  | nil : MsdpNested []
  | byte (b : Nat) : b ≠ IAC → b ≠ MSDP_TABLE_OPEN → b ≠ MSDP_TABLE_CLOSE →
      b ≠ MSDP_ARRAY_OPEN → b ≠ MSDP_ARRAY_CLOSE → MsdpNested [b]
  | table (v : Bytes) : MsdpNested v → MsdpNested (MSDP_TABLE_OPEN :: v ++ [MSDP_TABLE_CLOSE])
  | array (v : Bytes) : MsdpNested v → MsdpNested (MSDP_ARRAY_OPEN :: v ++ [MSDP_ARRAY_CLOSE])
  | append (v w : Bytes) : MsdpNested v → MsdpNested w → MsdpNested (v ++ w)

/-- An MSDP value in the sense of the specification: bytes that are neither an
MSDP marker nor IAC, and balanced tables and arrays (whose inside may hold
VAR and VAL bytes), in any sequence. -/
inductive MsdpValue : Bytes → Prop
  | nil : MsdpValue []
  | byte (b : Nat) : b ≠ IAC → b ≠ MSDP_VAR → b ≠ MSDP_VAL → b ≠ MSDP_TABLE_OPEN →
      b ≠ MSDP_TABLE_CLOSE → b ≠ MSDP_ARRAY_OPEN → b ≠ MSDP_ARRAY_CLOSE → MsdpValue [b]
  | table (v : Bytes) : MsdpNested v → MsdpValue (MSDP_TABLE_OPEN :: v ++ [MSDP_TABLE_CLOSE])
  | array (v : Bytes) : MsdpNested v → MsdpValue (MSDP_ARRAY_OPEN :: v ++ [MSDP_ARRAY_CLOSE])
  | append (v w : Bytes) : MsdpValue v → MsdpValue w → MsdpValue (v ++ w)

/-- A socket after `reset` on which MSDP has been enabled. -/
def msdpOn : Socket := { reset with opts := { reset.opts with msdp := true } }

/-- The bytes of a TTYPE response `IAC SB TTYPE IS name IAC SE`. -/
def ttypeResponse (name : Bytes) : Bytes :=
  [IAC, SB, TELOPT_TTYPE, TELQUAL_IS] ++ name ++ [IAC, SE]

/-- Successive reads, each run through the state machine of `processInput`. -/
def processReads (pre : Nat) : Socket → List Bytes → Option Socket
  | s, [] => some s
  | s, r :: rs => (processInputDecode pre r s).bind (fun p => processReads pre p.1 rs)

/-! ## The pager (socket.cpp 1181-1209, 1372-1374, 1418-1435, 1895-1904) -/

/-- `Socket::bprint(toPrint)`. -/
def bprint (s : Socket) (toPrint : Bytes) : Socket :=
  if toPrint ≠ [] then { s with output := s.output ++ toPrint } else s

/-- `Socket::println(toPrint)`: `bprint(fmt::format("{}\n", toPrint))`. -/
def println (s : Socket) (toPrint : Bytes) : Socket := bprint s (toPrint ++ [10])

/-- `Socket::askFor(str)`; `printColor` and `print` end in `vprint`, whose body
is in another translation unit. -/
def askFor (s : Socket) (text : Bytes) : Socket :=
  if s.opts.eor then (s.call (.printColor text)).call (.print EOR_STR)
  else (s.call (.printColor text)).call (.print GA_STR)

/-- `Socket::getMaxPages`. -/
def getMaxPages (s : Socket) : Int := max (s.term.rows - 2) MIN_PAGES

/-- The loop of `Socket::sendPages`, `n` iterations.  `front()` of an empty
deque is undefined in C++; the callers never ask for more lines than are
queued, and the model stops there. -/
def sendPagesLoop : Nat → Socket → Socket
  | 0, s => s
  | n + 1, s =>
    match s.pagerOutput with
    | [] => s
    | line :: rest =>
      sendPagesLoop n { println s line with pagerOutput := rest, paged := s.paged + 1 }

/-- `Socket::sendPages(numPages)`: `for (int i = numPages; i > 0; i--)`. -/
def sendPages (s : Socket) (numPages : Int) : Socket := sendPagesLoop numPages.toNat s

/-- The prompt of the pager. -/
def pagerPrompt : Bytes := str "\n[Hit Return, Any Key to Quit]: "

/-- `Socket::handlePaging(inStr)`. -/
def handlePaging (s : Socket) (inStr : Bytes) : Socket :=
  let s1 : Socket :=
    if inStr = [] then
      let numPages : Int := min (getMaxPages s) (s.pagerOutput.length : Int)
      let s2 := sendPages s numPages
      if s2.pagerOutput ≠ [] then askFor s2 pagerPrompt else s2
    else
      let s2 := println s (str "Aborting and clearing pager output")
      { s2 with pagerOutput := [] }
  if s1.pagerOutput = [] then { s1 with paged := 0 } else s1

/-- The bytes that `println` appends for a batch of lines. -/
def printedLines (lines : List Bytes) : Bytes := (lines.map (fun l => l ++ [10])).flatten

/-- The empty keystroke sent `n` times in a row: `n` calls of
`handlePaging("")`. -/
def continuePaging : Nat → Socket → Socket
  | 0, s => s
  | n + 1, s => continuePaging n (handlePaging s [])

/-- A socket with a terminal of 24 rows and 100 queued pager lines. -/
def pagerDemo : Socket :=
  { reset with term := { reset.term with rows := 24 },
               pagerOutput := (List.range 100).map (fun i => [48 + i / 10, 48 + i % 10]) }

/-! ## The output encoder (socket.cpp 427-465) -/

/-- `MXP_SECURE_OPEN`, the string `ESC [ 1 z`. -/
def MXP_SECURE_OPEN : Bytes := [ESC, 91, 49, 122]

/-- `MXP_LOCK_CLOSE`, the string `ESC [ 7 z`. -/
def MXP_LOCK_CLOSE : Bytes := [ESC, 91, 55, 122]

/-- Modelled from the spec: `Socket::getColorCode` is declared in socket.hpp
(line 214) but its body is not among the sources.  The spec says that a caret
followed by a code character "is replaced by an ANSI escape sequence if color
is enabled, or dropped (both bytes) if disabled": with colour disabled the
code yields no byte, with colour enabled the sequence that the table `ansi`
gives for the code character. -/
def getColorCode (color : Int) (ansi : Nat → Bytes) (ch : Nat) : Bytes :=
  if color = NO_COLOR then [] else ansi ch

/-- The `while (i < n)` of `Socket::parseForOutput` on the rest of `outBuf`,
with the local `inTag`; `code` is `getColorCode`.  The lookahead
`outBuf[i++]` after a caret that ends the text reads the terminating NUL and
leaves `i = n + 1`, which ends the loop. -/
def parseForOutputLoop (mxp : Bool) (code : Nat → Bytes) : Bool → Bytes → Bytes
  | _, [] => []
  | true, ch :: rest =>
    if ch = CH_MXP_END then
      (if mxp then 62 :: MXP_LOCK_CLOSE else []) ++ parseForOutputLoop mxp code false rest
    else (if mxp then [ch] else []) ++ parseForOutputLoop mxp code true rest
  | false, ch :: rest =>
    if ch = CH_MXP_BEG then
      (if mxp then MXP_SECURE_OPEN ++ [60] else []) ++ parseForOutputLoop mxp code true rest
    else if ch = 94 then
      match rest with
      | [] => code 0
      | c2 :: rest2 => code c2 ++ parseForOutputLoop mxp code false rest2
    else if ch = 10 then 13 :: 10 :: parseForOutputLoop mxp code false rest
    else ch :: parseForOutputLoop mxp code false rest

/-- `Socket::parseForOutput(outBuf)`. -/
def parseForOutput (s : Socket) (ansi : Nat → Bytes) (outBuf : Bytes) : Bytes :=
  parseForOutputLoop s.opts.mxp (getColorCode s.opts.color ansi) false outBuf

/-- The pieces of a text whose only special sequences are caret colour codes:
an ordinary byte, or a caret followed by a code character. -/
inductive OutTok
  | plain (b : Nat)
  | code (c : Nat)
  deriving DecidableEq, Repr

/-- The bytes of one piece. -/
def OutTok.bytes : OutTok → Bytes
  | .plain b => [b]
  | .code c => [94, c]

/-- The text made of the pieces, in order. -/
def renderToks (ts : List OutTok) : Bytes := (ts.map OutTok.bytes).flatten

/-- The ordinary bytes of the pieces, in order. -/
def plainOf : List OutTok → Bytes
  | [] => []
  | .plain b :: ts => b :: plainOf ts
  | .code _ :: ts => plainOf ts

/-- An ordinary byte is neither a caret, a newline nor the tag-open byte. -/
def OutTok.ordinary : OutTok → Prop
  | .plain b => b ≠ 94 ∧ b ≠ 10 ∧ b ≠ CH_MXP_BEG
  | .code _ => True

/-! ## The output path under MCCP (socket.cpp 1529-1546, 1650-1673)

The descriptor `fd` is non-blocking (`nonBlock`, socket.cpp 1859): `::write`
returns the number of bytes the kernel accepted, or -1 with `errno ==
EWOULDBLOCK` when it accepts none, as the uncompressed branch of
`Socket::write` (socket.cpp 1504-1516) reads it. -/

/-- The answer of the transport to one call of `::write`. -/
inductive Answer
  | accept (k : Nat)
  | wouldBlock
  | error
  deriving DecidableEq, Repr

/-- The transport behind `fd`: the answers to the coming calls of `::write`
(once they are used up every byte is accepted) and the bytes accepted so far. -/
structure Transport where
  answers : List Answer
  sent : Bytes
  deriving DecidableEq, Repr

/-- The outcome of `::write`: the transport afterwards, the returned `n`, and
whether `errno` is `EWOULDBLOCK`. -/
structure SysWrite where
  fd : Transport
  n : Int
  wouldBlock : Bool
  deriving DecidableEq, Repr

/-- `::write(fd, data, count)` with `data` the `count` bytes offered. -/
def sysWrite (fd : Transport) (data : Bytes) : SysWrite :=
  match fd.answers with
  | [] => { fd := { fd with sent := fd.sent ++ data }, n := data.length, wouldBlock := false }
  | .accept k :: rest =>
    { fd := { answers := rest, sent := fd.sent ++ data.take k },
      n := ((min k data.length : Nat) : Int), wouldBlock := false }
  | .wouldBlock :: rest => { fd := { fd with answers := rest }, n := -1, wouldBlock := true }
  | .error :: rest => { fd := { fd with answers := rest }, n := -1, wouldBlock := false }

/-- `Socket::COMPRESSED_OUTBUF_SIZE`. -/
abbrev COMPRESSED_OUTBUF_SIZE : Nat := 8192

/-- The members of `Socket` used by the compressed output path:
`outCompressBuf` holds the staged bytes, from the start of the buffer up to
`outCompress->next_out`, so `next_out - outCompressBuf` is its length. -/
structure Mccp where
  outCompressBuf : Bytes
  fd : Transport
  deriving DecidableEq, Repr

/-- How the `for` loop of `processCompressed` ends: by `return (-1)`, or at the
loop exit (condition false, or `break`) with the index `i` and `written`. -/
inductive LoopExit
  | failed (fd : Transport)
  | done (fd : Transport) (i : Nat) (written : Nat)
  deriving DecidableEq, Repr

/-- The loop `for (i = 0, n = 0; i < len; i += n)` of `processCompressed` over
the staged bytes `buf`; `none` when the fuel runs out. -/
def processCompressedLoop (buf : Bytes) : Nat → Transport → Nat → Nat → Option LoopExit
  | 0, _, _, _ => none
  | fuel + 1, fd, i, written =>
    if i < buf.length then
      let block := min (buf.length - i) 4096
      let r := sysWrite fd ((buf.drop i).take block)
      if r.n < 0 then some (.failed r.fd)
      else if r.n = 0 then some (.done r.fd i (written + r.n.toNat))
      else processCompressedLoop buf fuel r.fd (i + r.n.toNat) (written + r.n.toNat)
    else some (.done fd i written)

/-- `Socket::processCompressed`: the socket afterwards and the returned
`size_t` (`return (-1)` yields `2^64 - 1`).  Every pass of the loop that does
not leave it advances `i`, so `len + 1` passes are enough. -/
def processCompressed (m : Mccp) : Option (Mccp × Nat) :=
  if 0 < m.outCompressBuf.length then
    match processCompressedLoop m.outCompressBuf (m.outCompressBuf.length + 1) m.fd 0 0 with
    | none => none
    | some (.failed fd) => some ({ m with fd := fd }, 2 ^ 64 - 1)
    | some (.done fd i written) =>
      if i ≠ 0 then some ({ outCompressBuf := m.outCompressBuf.drop i, fd := fd }, written)
      else some ({ m with fd := fd }, written)
  else some (m, 0)

/-- The value of a `size_t` bit pattern read as `ssize_t`. -/
def toSSize (v : Nat) : Int := if v % 2 ^ 64 < 2 ^ 63 then (v % 2 ^ 64 : Nat) else (v % 2 ^ 64 : Nat) - 2 ^ 64

/-- The outcome of `deflate(strm, Z_SYNC_FLUSH)`: the compressor state, the
number of input bytes consumed, the bytes stored at `next_out`, and whether the
result is `Z_OK`. -/
structure Deflated (Z : Type) where
  z : Z
  consumed : Nat
  out : Bytes
  ok : Bool

/-- The compressor, a library outside the repository: `deflate z input
avail_out` for the pending input `next_in[0 .. avail_in)` and the free space
`avail_out` of the staging buffer. -/
structure Zlib (Z : Type) where
  deflate : Z → Bytes → Nat → Deflated Z

/-- The loop `while (outCompress->avail_in)` of the compressed branch of
`Socket::write`: the compressor state, the socket and the local `written` when
the loop is left (`return (0)` after a failed `deflate`, or `break`, or
`avail_in == 0`); `none` when the fuel runs out. -/
def writeCompressedLoop {Z : Type} (zl : Zlib Z) :
    Nat → Z → Mccp → Bytes → Int → Option (Z × Mccp × Int)
  | 0, _, _, _, _ => none
  | fuel + 1, z, m, input, written =>
    if input = [] then some (z, m, written)
    else
      let r := zl.deflate z input (COMPRESSED_OUTBUF_SIZE - m.outCompressBuf.length)
      if !r.ok then some (r.z, m, 0)
      else
        match processCompressed { m with outCompressBuf := m.outCompressBuf ++ r.out } with
        | none => none
        | some (m2, pc) =>
          let written2 := toSSize ((written % 2 ^ 64).toNat + pc)
          if written2 = 0 then some (r.z, m2, written2)
          else writeCompressedLoop zl fuel r.z m2 (input.drop r.consumed) written2

/-- The branch `opts.compressing` of `Socket::write` for the encoded output
`toOutput`; one pass of the loop per input byte and one more. -/
def writeCompressed {Z : Type} (zl : Zlib Z) (z : Z) (m : Mccp) (toOutput : Bytes) :
    Option (Z × Mccp × Int) :=
  writeCompressedLoop zl (toOutput.length + 1) z m toOutput 0

/-- The identity codec: it stores its input unchanged, as much as the staging
buffer takes, and reports `Z_OK` when it made progress.  It satisfies the
streaming contract of the specification with inflating as the identity. -/
def storedZlib : Zlib Unit where
  deflate := fun _ input availOut =>
    { z := (), consumed := min input.length availOut, out := input.take availOut,
      ok := decide (0 < min input.length availOut) }

/-- The option bytes that have a case of their own in `Socket::negotiate`. -/
def supportedOptions : List Nat :=
  [TELOPT_CHARSET, TELOPT_TTYPE, TELOPT_MXP, TELOPT_COMPRESS2, TELOPT_COMPRESS, TELOPT_EOR,
   TELOPT_NAWS, TELOPT_ECHO, TELOPT_NEW_ENVIRON, TELOPT_MSSP, TELOPT_MSP, TELOPT_MSDP]

/-- The offers that `Socket::continueTelnetNeg` writes after the optional TTYPE
query, in the order of the source. -/
def cascadeOffers : List Effect :=
  [Effect.write will_comp2 false true, Effect.write will_comp1 false true,
   Effect.write do_naws false true, Effect.write will_msdp false true,
   Effect.write will_mssp false true, Effect.write will_msp false true,
   Effect.write will_mxp false true, Effect.write will_eor false true]

/-- Whether an outgoing call is one of the offers of the cascade. -/
def isOffer (e : Effect) : Bool := decide (e ∈ cascadeOffers)

/-- The socket `s2` has the dumb flag of `s1` and the same cascade offers among
its outgoing calls. -/
def SameOffers (s1 s2 : Socket) : Prop :=
  s2.opts.dumb = s1.opts.dumb ∧ s2.calls.filter isOffer = s1.calls.filter isOffer

/-! ## The line assembler of `Socket::processInput` (socket.cpp 913-950) -/

/-- The loop `while ((idx = inBuf.find("\n", 0)) != npos)` (socket.cpp 934-950)
on the buffer `inBuf` and the queue `input`: the queue and the buffer when the
loop is left, `none` when the fuel runs out.  `inBuf[idx]` at `idx == size()`
reads the terminating NUL. -/
def commandLoop : Nat → Bytes → List Bytes → Option (List Bytes × Bytes)
  | 0, _, _ => none
  | fuel + 1, inBuf, input =>
    match find inBuf [10] with
    | none => some (input, inBuf)
    | some idx =>
      let tmpr := inBuf.take idx
      let idx1 := idx + 1
      let idx2 := if inBuf.getD idx1 0 = 10 then idx1 + 1 else idx1
      commandLoop fuel (inBuf.drop idx2) (input ++ [tmpr])

/-- The command splitting of `Socket::processInput` on an empty queue: every
pass removes at least one byte, so `size() + 1` passes are enough. -/
def splitCommands (inBuf : Bytes) : Option (List Bytes × Bytes) :=
  commandLoop (inBuf.length + 1) inBuf []

/-- The splitting in the words of the specification: `Splits buf cmds rest`
when `buf` is the segments `cmds`, each followed by its terminator, and then
the newline-free text `rest`; a terminator is a newline together with the
newline that immediately follows it, if there is one. -/
inductive Splits : Bytes → List Bytes → Bytes → Prop
  | done (rest : Bytes) : 10 ∉ rest → Splits rest [] rest
  | one (seg tail : Bytes) (cmds : List Bytes) (rest : Bytes) :
      10 ∉ seg → tail.head? ≠ some 10 → Splits tail cmds rest →
      Splits (seg ++ 10 :: tail) (seg :: cmds) rest
  | two (seg tail : Bytes) (cmds : List Bytes) (rest : Bytes) :
      10 ∉ seg → Splits tail cmds rest →
      Splits (seg ++ 10 :: 10 :: tail) (seg :: cmds) rest

/-- `inBuf.erase(pos, 2)` for a position `pos <= size()`. -/
def erase2 (inBuf : Bytes) (pos : Nat) : Bytes := inBuf.take pos ++ inBuf.drop (pos + 2)

/-- The outcome of the backspace pass: the buffer, or the exception
`std::out_of_range` that `std::string::at` and `std::string::erase` throw for a
position outside the string. -/
inductive Pass
  | ok (inBuf : Bytes)
  | outOfRange
  deriving DecidableEq, Repr

/-- The loop `for (i = ...; i < (unsigned) n; i++)` of the backspace handling
(socket.cpp 921-932) with the locals `n` and `i`; `none` when the fuel runs
out.  `erase(i - 1, 2)` receives `i - 1` converted to `size_t`, so a negative
value is a position past the end. -/
def backspaceLoop : Nat → Bytes → Int → Int → Option Pass
  | 0, _, _, _ => none
  | fuel + 1, inBuf, n, i =>
    if i < n then
      if i < 0 ∨ (inBuf.length : Int) ≤ i then some .outOfRange
      else if inBuf.getD i.toNat 0 = 8 ∨ inBuf.getD i.toNat 0 = 127 then
        if n < 2 then backspaceLoop fuel [] 0 (i + 1)
        else if i - 1 < 0 ∨ (inBuf.length : Int) < i - 1 then some .outOfRange
        else backspaceLoop fuel (erase2 inBuf (i - 1).toNat) (n - 2) (i - 1 + 1)
      else backspaceLoop fuel inBuf n (i + 1)
    else some (.ok inBuf)

/-- The lines 915-932 of `Socket::processInput` for the rolling buffer `inBuf`
and the freshly decoded text `tmp`: CR becomes LF, the text is appended, and
the backspaces of the appended region are applied.  Every pass of the loop
brings `i` and `n` closer, so `tmp.length() + 1` passes are enough. -/
def backspacePass (inBuf tmp : Bytes) : Option Pass :=
  let buf := inBuf ++ tmp.map (fun c => if c = 13 then 10 else c)
  backspaceLoop (tmp.length + 1) buf (buf.length : Int)
    (max ((buf.length : Int) - (tmp.length : Int)) 0)

/-! ## Appending to the pager (socket.cpp 1364-1370, 1391-1412) -/

/-- The tokens of `boost::tokenizer` with `boost::char_separator<char>("\n")`:
the maximal non-empty runs of bytes other than the newline (empty tokens are
dropped); `cur` is the token being collected. -/
def tokensFrom : Bytes → Bytes → List Bytes
  | cur, [] => if cur = [] then [] else [cur]
  | cur, c :: rest =>
    if c = 10 then (if cur = [] then tokensFrom [] rest else cur :: tokensFrom [] rest)
    else tokensFrom (cur ++ [c]) rest

/-- `Socket::printPaged(toPrint)`. -/
def printPaged (s : Socket) (toPrint : Bytes) : Socket :=
  { s with pagerOutput := s.pagerOutput ++ tokensFrom [] toPrint }

/-- `pagerOutput.back().append(text)` on a non-empty queue. -/
def appendBack (q : List Bytes) (text : Bytes) : List Bytes :=
  q.dropLast ++ [q.getLast?.getD [] ++ text]

/-- `Socket::appendPaged(toAppend)`. -/
def appendPaged (s : Socket) (toAppend : Bytes) : Socket :=
  if s.pagerOutput = [] then
    let s1 := printPaged s toAppend
    { s1 with pagerOutput := s1.pagerOutput ++ [[]] }
  else
    match find toAppend [10] with
    | none => { s with pagerOutput := appendBack s.pagerOutput toAppend }
    | some pos =>
      let s1 : Socket := { s with pagerOutput := appendBack s.pagerOutput (toAppend.take pos) }
      let s2 := printPaged s1 (toAppend.drop (pos + 1))
      { s2 with pagerOutput := s2.pagerOutput ++ [[]] }

/-! ## The output path: `Socket::needsPrompt`, `Socket::write`, `Socket::flush`,
`Socket::startCompress` (socket.cpp 467-500, 1465-1612) -/

/-- The outer `while (i < n)` of `Socket::needsPrompt` on the rest of `inStr`
(the inner loop of `case SB` is the one of `stripTelnet`); one unit of fuel per
iteration. -/
def needsPromptLoop : Nat → Bytes → Bool
  | 0, _ => false
  | _ + 1, [] => false
  | fuel + 1, c :: rest =>
    if c = IAC then
      if rest.headD 0 = WILL ∨ rest.headD 0 = WONT ∨ rest.headD 0 = DO then
        needsPromptLoop fuel (rest.drop 2)
      else if rest.headD 0 = EOR then
        needsPromptLoop fuel (rest.drop 1)
      else if rest.headD 0 = SB then
        needsPromptLoop fuel (skipToSE (c :: rest))
      else true
    else true

/-- `Socket::needsPrompt`: every iteration advances `i`, so `n` iterations are
enough. -/
def needsPrompt (inStr : Bytes) : Bool := needsPromptLoop inStr.length inStr

/-- The C string at a `const char *`: the bytes before the first NUL. -/
def cString (p : Bytes) : Bytes := p.takeWhile (fun c => c ≠ 0)

/-- How the `do ... while (written < total)` of the uncompressed branch of
`Socket::write` ends: by `return (n)`, or at the loop exit (condition false, or
`break`) with `processedOutput` and the locals `written` and `n`. -/
inductive RawExit
  | failed (fd : Transport) (n : Int)
  | left (fd : Transport) (processedOutput : Bytes) (written n : Int)
  deriving DecidableEq, Repr

/-- The loop `do { n = ::write(fd, str + written, total - written); ... } while
(written < total)` for the encoded output `toOutput`; `none` when the fuel runs
out.  `processedOutput = str + written` assigns the C string at that address. -/
def writeRawLoop (toOutput : Bytes) : Nat → Transport → Bytes → Int → Option RawExit
  | 0, _, _, _ => none
  | fuel + 1, fd, processedOutput, written =>
    let r := sysWrite fd (toOutput.drop written.toNat)
    if r.n < 0 then
      if !r.wouldBlock then some (.failed r.fd r.n)
      else
        some (.left r.fd
          (if written < (toOutput.length : Int) then cString (toOutput.drop written.toNat)
           else processedOutput)
          written (-2))
    else if written + r.n < (toOutput.length : Int) then
      writeRawLoop toOutput fuel r.fd processedOutput (written + r.n)
    else some (.left r.fd processedOutput (written + r.n) r.n)

/-- How the loop `while (outCompress->avail_in)` of the compressed branch of
`Socket::write` ends: by `return (0)` after a failed `deflate`, or at the loop
exit with the local `written`. -/
inductive DeflateExit (Z : Type)
  | failed (z : Z) (m : Mccp)
  | left (z : Z) (m : Mccp) (written : Int)

/-- The loop of `writeCompressedLoop` together with the way it is left. -/
def writeDeflateLoop {Z : Type} (zl : Zlib Z) :
    Nat → Z → Mccp → Bytes → Int → Option (DeflateExit Z)
  | 0, _, _, _, _ => none
  | fuel + 1, z, m, input, written =>
    if input = [] then some (.left z m written)
    else
      let r := zl.deflate z input (COMPRESSED_OUTBUF_SIZE - m.outCompressBuf.length)
      if !r.ok then some (.failed r.z m)
      else
        match processCompressed { m with outCompressBuf := m.outCompressBuf ++ r.out } with
        | none => none
        | some (m2, pc) =>
          let written2 := toSSize ((written % 2 ^ 64).toNat + pc)
          if written2 = 0 then some (.left r.z m2 written2)
          else writeDeflateLoop zl fuel r.z m2 (input.drop r.consumed) written2

/-- The members of `Socket` and the global counters that the output path uses:
`outCompress` is the compressor state behind the pointer of that name, `mccp`
holds the staging buffer `outCompressBuf` and the transport behind `fd`. -/
structure OutSock (Z : Type) where
  opts : SockOptions
  output : Bytes
  processedOutput : Bytes
  outCompress : Z
  mccp : Mccp
  UnCompressedBytes : Int
  OutBytes : Int

/-- The end of `Socket::write` from `OutBytes += written` on.  Nobody spies on
the socket (`spying` is empty), so the block guarded by `pSpy` is skipped. -/
def OutSock.finish {Z : Type} (o : OutSock Z) (toWrite : Bytes) (written : Int) :
    OutSock Z × Int :=
  ({ o with OutBytes := o.OutBytes + written }, if !needsPrompt toWrite then -2 else written)

/-- `Socket::write(toWrite, pSpy, process)`: the socket afterwards and the
returned `ssize_t`; `none` when a loop runs out of fuel.  The encoder
`parseForOutput` reads the options of the socket.  In the uncompressed branch
each pass of the loop uses up one scripted answer of the transport or writes
everything, so one pass per answer and one more are enough.  The comparison
`written >= total` is made in `size_t`. -/
def OutSock.write {Z : Type} (zl : Zlib Z) (ansi : Nat → Bytes) (o : OutSock Z)
    (toWrite : Bytes) (_pSpy process : Bool) : Option (OutSock Z × Int) :=
  let toOutput :=
    if process then parseForOutputLoop o.opts.mxp (getColorCode o.opts.color ansi) false toWrite
    else toWrite
  let total := toOutput.length
  if !o.opts.compressing then
    match writeRawLoop toOutput (o.mccp.fd.answers.length + 1) o.mccp.fd o.processedOutput 0 with
    | none => none
    | some (.failed fd n) => some ({ o with mccp := { o.mccp with fd := fd } }, n)
    | some (.left fd processedOutput written n) =>
      let o1 : OutSock Z :=
        { o with mccp := { o.mccp with fd := fd }, processedOutput := processedOutput,
                 UnCompressedBytes := o.UnCompressedBytes + written }
      let written1 : Int := if n = -2 then -2 else written
      let o2 : OutSock Z :=
        if total ≤ (written1 % 2 ^ 64).toNat ∧ o1.processedOutput ≠ [] ∧ process = false then
          { o1 with processedOutput := [] }
        else o1
      some (o2.finish toWrite written1)
  else
    let o1 : OutSock Z := { o with UnCompressedBytes := o.UnCompressedBytes + total }
    match writeDeflateLoop zl (total + 1) o1.outCompress o1.mccp toOutput 0 with
    | none => none
    | some (.failed z m) => some ({ o1 with outCompress := z, mccp := m }, 0)
    | some (.left z m written) =>
      some (OutSock.finish { o1 with outCompress := z, mccp := m } toWrite written)

/-- `Socket::flush` for a socket without a player (`myPlayer` is null, so no
prompt is sent). -/
def OutSock.flush {Z : Type} (zl : Zlib Z) (ansi : Nat → Bytes) (o : OutSock Z) :
    Option (OutSock Z) :=
  if o.processedOutput ≠ [] then
    (o.write zl ansi o.processedOutput false false).map (fun r => r.1)
  else
    match o.write zl ansi o.output true true with
    | none => none
    | some (o1, n) => if n = 0 then some o1 else some { o1 with output := [] }

/-- `Socket::startCompress(silent)` on the output path: the socket afterwards
and the returned `int`.  `init` is the outcome of `deflateInit`: the fresh
compressor state for `Z_OK`, `none` otherwise.  The result of the `write` of
the start marker is discarded. -/
def OutSock.startCompress {Z : Type} (zl : Zlib Z) (ansi : Nat → Bytes) (o : OutSock Z)
    (init : Option Z) (silent : Bool) : Option (OutSock Z × Int) :=
  if o.opts.mccp = 0 then some (o, -1)
  else if o.opts.compressing then some (o, -1)
  else
    match init with
    | none => some (o, -1)
    | some z0 =>
      let o1 : OutSock Z := { o with outCompress := z0, mccp := { o.mccp with outCompressBuf := [] } }
      let marked : Option (OutSock Z) :=
        if !silent then
          (if o1.opts.mccp = 2 then (o1.write zl ansi start_mccp2 false true).map (fun r => r.1)
           else (o1.write zl ansi start_mccp false true).map (fun r => r.1))
        else some o1
      match marked with
      | none => none
      | some o2 => some ({ o2 with opts := { o2.opts with compressing := true } }, 0)

/-- A socket with nothing queued and nothing sent, whose transport gives the
scripted `answers`. -/
def OutSock.fresh {Z : Type} (z : Z) (answers : List Answer) : OutSock Z :=
  { opts := reset.opts, output := [], processedOutput := [], outCompress := z,
    mccp := { outCompressBuf := [], fd := { answers := answers, sent := [] } },
    UnCompressedBytes := 0, OutBytes := 0 }

/-- The call `flush()` made `n` times in a row. -/
def OutSock.flushes {Z : Type} (zl : Zlib Z) (ansi : Nat → Bytes) :
    Nat → OutSock Z → Option (OutSock Z)
  | 0, o => some o
  | n + 1, o => (o.flush zl ansi).bind (OutSock.flushes zl ansi n)

/-- The positions of `outBuf` that `Socket::parseForOutput` reads with
`outBuf[i++]`, in order, from the index `i` on with the local `inTag`; one unit
of fuel per pass of the `while (i < n)`.  After a caret the next position is
read without a test against `n`. -/
def parseForOutputReads (outBuf : Bytes) : Nat → Nat → Bool → List Nat
  | 0, _, _ => []
  | fuel + 1, i, inTag =>
    if i < outBuf.length then
      if inTag then
        i :: parseForOutputReads outBuf fuel (i + 1) (decide (outBuf.getD i 0 ≠ CH_MXP_END))
      else if outBuf.getD i 0 = CH_MXP_BEG then i :: parseForOutputReads outBuf fuel (i + 1) true
      else if outBuf.getD i 0 = 94 then
        i :: (i + 1) :: parseForOutputReads outBuf fuel (i + 2) false
      else i :: parseForOutputReads outBuf fuel (i + 1) false
    else []

/-! ## `Socket::processInput` as a whole (socket.cpp 593-953) -/

/-- The outcome of `Socket::processInput`: the socket and the queue `input`
of commands, or the exception `std::out_of_range` of the backspace pass. -/
inductive Processed
  | ok (s : Socket) (input : List Bytes)
  | outOfRange
  deriving DecidableEq, Repr

/-- `Socket::processInput` for the bytes `tmpBuf` that `read` delivered (none
when `read` returned `n <= 0`, which ends the function at once): the state
machine, then CR normalisation and backspaces on `inBuf`, then the command
split; `none` when a loop runs out of fuel. -/
def processInput (pre : Nat) (s : Socket) (input : List Bytes) (tmpBuf : Bytes) :
    Option Processed :=
  if tmpBuf = [] then some (.ok s input)
  else
    match processInputDecode pre tmpBuf s with
    | none => none
    | some (s1, tmp) =>
      match backspacePass s1.inBuf tmp with
      | none => none
      | some .outOfRange => some .outOfRange
      | some (.ok inBuf) =>
        match commandLoop (inBuf.length + 1) inBuf input with
        | none => none
        | some (input2, rest) => some (.ok { s1 with inBuf := rest } input2)

/-- Successive calls of `processInput`, one per read. -/
def processInputs (pre : Nat) : Socket → List Bytes → List Bytes → Option Processed
  | s, input, [] => some (.ok s input)
  | s, input, r :: rs =>
    match processInput pre s input r with
    | some (.ok s1 input1) => processInputs pre s1 input1 rs
    | other => other

/-! ## Colour capability -/

/-- The states of the MXP-secure prelude `ESC [ 1 z` and of the line that
follows it. -/
def TState.mxpSecure : TState → Bool
  | .NEG_MXP_SECURE | .NEG_MXP_SECURE_TWO | .NEG_MXP_SECURE_FINISH
  | .NEG_MXP_SECURE_CONSUME => true
  | _ => false

/-- The colour capability of `s2` is not below that of `s1`: the colour level
is the same or has been set to `ANSI_COLOR`, and `xterm256` is still set if it
was. -/
def ColourKept (s1 s2 : Socket) : Prop :=
  (s2.opts.color = s1.opts.color ∨ s2.opts.color = ANSI_COLOR) ∧
    (s1.opts.xterm256 = true → s2.opts.xterm256 = true)

/-- The loop of `processInputLoop` together with the indices at which the loop
body reads `tmpBuf` (after the index has been settled), in the order of the
passes. -/
def processInputTrace (pre : Nat) (tmpBuf : Bytes) :
    Nat → Int → Socket × Bytes → Option ((Socket × Bytes) × List Int)
  | 0, i, st => if i < (tmpBuf.length : Int) then none else some (st, [])
  | fuel + 1, i, st =>
    if i < (tmpBuf.length : Int) then
      let i1 := if rewinds st.1 (tmpBufAt pre tmpBuf i) then i - 1 else i
      (processInputTrace pre tmpBuf fuel (i1 + 1) (bodyStep st (tmpBufAt pre tmpBuf i1))).map
        (fun r => (r.1, i1 :: r.2))
    else some (st, [])

/-- The transport after the uncompressed loop, however the loop is left. -/
def RawExit.fd : RawExit → Transport
  | .failed fd _ => fd
  | .left fd _ _ _ => fd

/-! # Theorems -/

/-! ## Lemmas on `stripTelnet` -/

theorem skipToSE_length_le (s : Bytes) : (skipToSE s).length ≤ s.length := by
  induction s with
  | nil => simp [skipToSE]
  | cons c rest ih =>
    unfold skipToSE
    split
    · simp; omega
    · simp; omega

/-- More fuel than the length of the remaining input changes nothing: the loop
of `stripTelnet` always runs to the end of its input. -/
theorem stripTelnetLoop_fuel (fuel : Nat) (s : Bytes) (h : s.length ≤ fuel) :
    stripTelnetLoop fuel s = stripTelnetLoop s.length s := by
  induction fuel using Nat.strong_induction_on generalizing s with
  | _ fuel ih =>
    cases s with
    | nil => cases fuel <;> simp [stripTelnetLoop]
    | cons c rest =>
      cases fuel with
      | zero => simp at h
      | succ f =>
        have hr : rest.length ≤ f := by simpa using h
        have hsk : (skipToSE rest).length ≤ rest.length := skipToSE_length_le rest
        have key : ∀ t : Bytes, t.length ≤ rest.length →
            stripTelnetLoop f t = stripTelnetLoop rest.length t := by
          intro t ht
          rw [ih f (Nat.lt_succ_self f) t (le_trans ht hr),
            ih rest.length (Nat.lt_succ_of_le hr) t ht]
        simp only [stripTelnetLoop, List.length_cons]
        have hsk2 : (skipToSE (c :: rest)).length ≤ rest.length ∨
            ¬ (c = IAC ∧ rest.headD 0 = SB) := by
          by_cases hc : c = IAC ∧ rest.headD 0 = SB
          · left
            unfold skipToSE
            rw [if_neg (by rw [hc.2]; simp)]
            exact hsk
          · right; exact hc
        split
        · split
          · exact key _ (by simp)
          · split
            · exact key _ (by simp)
            · split
              · rename_i hc _ _ hsb
                rcases hsk2 with h2 | h2
                · exact key _ h2
                · exact absurd ⟨hc, hsb⟩ h2
              · rw [key rest le_rfl]
        · rw [key rest le_rfl]

theorem stripTelnetLoop_id (fuel : Nat) (s : Bytes) (h : IAC ∉ s)
    (hf : s.length ≤ fuel) : stripTelnetLoop fuel s = s := by
  induction s generalizing fuel with
  | nil => cases fuel <;> simp [stripTelnetLoop]
  | cons c rest ih =>
    cases fuel with
    | zero => simp at hf
    | succ f =>
      have hc : c ≠ IAC := fun e => h (by simp [e])
      have hr : IAC ∉ rest := fun e => h (by simp [e])
      simp only [stripTelnetLoop, if_neg hc]
      rw [ih f hr (by simpa using hf)]

/-- C1. `Socket::stripTelnet` is the identity on IAC-free input: a byte string
that contains no byte 255 is returned unchanged. -/
theorem stripTelnet_id_of_no_IAC (s : Bytes) (h : IAC ∉ s) : stripTelnet s = s :=
  stripTelnetLoop_id s.length s h le_rfl

theorem stripTelnet_id_of_no_IAC_witness :
    IAC ∉ ([104, 105, 13, 10] : Bytes) ∧ stripTelnet [104, 105, 13, 10] = [104, 105, 13, 10] :=
  ⟨by decide, stripTelnet_id_of_no_IAC [104, 105, 13, 10] (by decide)⟩

/-! ### C2: what `stripTelnet` leaves in its output -/

theorem skipToSE_suffix (s : Bytes) : skipToSE s <:+ s := by
  induction s with
  | nil => simp [skipToSE]
  | cons c rest ih =>
    unfold skipToSE
    split
    · exact (List.drop_suffix 1 rest).trans (List.suffix_cons c rest)
    · exact ih.trans (List.suffix_cons c rest)

/-- Two adjacent bytes of a list are related by `R` as soon as every two-byte
infix is. -/
theorem chain_of_forall_pairs (R : Nat → Nat → Prop) (l : Bytes)
    (h : ∀ a b, [a, b] <:+: l → R a b) : List.Chain' R l := by
  induction l with
  | nil => exact List.chain'_nil
  | cons a t ih =>
    cases t with
    | nil => exact List.chain'_singleton a
    | cons b t2 =>
      refine List.chain'_cons.2 ⟨h a b ⟨[], t2, by simp⟩, ih ?_⟩
      intro x y hxy
      exact h x y (hxy.trans (List.suffix_cons a (b :: t2)).isInfix)

/-- In the output of the loop an emitted IAC is never directly followed by
WILL, WONT, DO or SB, provided the input has no doubled IAC. -/
theorem stripTelnetLoop_chain (fuel : Nat) (s : Bytes)
    (h : List.Chain' (fun a b => ¬ (a = IAC ∧ b = IAC)) s) :
    List.Chain' (fun a b => a = IAC → b ≠ WILL ∧ b ≠ WONT ∧ b ≠ DO ∧ b ≠ SB)
      (stripTelnetLoop fuel s) := by
  induction fuel generalizing s with
  | zero => simp [stripTelnetLoop]
  | succ f ih =>
    cases s with
    | nil => simp [stripTelnetLoop]
    | cons c rest =>
      have hrest : List.Chain' (fun a b => ¬ (a = IAC ∧ b = IAC)) rest := h.tail
      simp only [stripTelnetLoop]
      split
      · rename_i hc
        split
        · exact ih _ (hrest.suffix (List.drop_suffix 2 rest))
        · rename_i h1
          split
          · exact ih _ (hrest.suffix (List.drop_suffix 1 rest))
          · split
            · exact ih _ (h.suffix (skipToSE_suffix (c :: rest)))
            · rename_i h3
              refine List.Chain'.cons' (ih rest hrest) ?_
              intro y hy _
              cases rest with
              | nil => cases f <;> simp [stripTelnetLoop] at hy
              | cons z t =>
                have hz : z ≠ IAC := fun e => (List.chain'_cons.1 h).1 ⟨hc, e⟩
                cases f with
                | zero => simp [stripTelnetLoop] at hy
                | succ g =>
                  simp only [stripTelnetLoop, if_neg hz, List.head?_cons,
                    Option.mem_def, Option.some.injEq] at hy
                  subst hy
                  simp only [List.headD_cons] at h1 h3
                  exact ⟨fun e => h1 (Or.inl e), fun e => h1 (Or.inr (Or.inl e)),
                    fun e => h1 (Or.inr (Or.inr e)), h3⟩
      · rename_i hc
        refine List.Chain'.cons' (ih rest hrest) ?_
        intro y _ e
        exact absurd e hc

theorem stripTelnet_pair (s : Bytes) (h : ¬ [IAC, IAC] <:+: s) (c : Nat)
    (hc : c = WILL ∨ c = WONT ∨ c = DO ∨ c = SB) : ¬ [IAC, c] <:+: stripTelnet s := by
  intro hin
  have hch : List.Chain' (fun a b => ¬ (a = IAC ∧ b = IAC)) s := by
    apply chain_of_forall_pairs
    rintro a b hab ⟨rfl, rfl⟩
    exact h hab
  have h2 := List.Chain'.infix (stripTelnetLoop_chain s.length s hch) hin
  have h3 := (List.chain'_cons.1 h2).1 rfl
  rcases hc with e | e | e | e
  · exact h3.1 e
  · exact h3.2.1 e
  · exact h3.2.2.1 e
  · exact h3.2.2.2 e

/-- C2 (counterexample). On `IAC IAC EOR WILL ECHO` the first IAC is emitted
(the byte after it is no command), the following `IAC EOR` is skipped, and the
output is the complete negotiation `IAC WILL ECHO`. -/
theorem stripTelnet_leaves_will :
    stripTelnet [IAC, IAC, EOR, WILL, TELOPT_ECHO] = [IAC, WILL, TELOPT_ECHO] ∧
      [IAC, WILL, TELOPT_ECHO] <:+: stripTelnet [IAC, IAC, EOR, WILL, TELOPT_ECHO] :=
  ⟨by decide, ⟨[], [], by decide⟩⟩

/-- C2 (amended). For every input in which no IAC is directly followed by
another IAC, the output of `Socket::stripTelnet` contains no `IAC WILL opt`,
`IAC WONT opt` or `IAC DO opt` and no block `IAC SB ... IAC SE`. -/
theorem stripTelnet_no_negotiation (s : Bytes) (h : ¬ [IAC, IAC] <:+: s) :
    (∀ opt, ¬ [IAC, WILL, opt] <:+: stripTelnet s) ∧
    (∀ opt, ¬ [IAC, WONT, opt] <:+: stripTelnet s) ∧
    (∀ opt, ¬ [IAC, DO, opt] <:+: stripTelnet s) ∧
    (∀ body, ¬ ([IAC, SB] ++ body ++ [IAC, SE]) <:+: stripTelnet s) := by
  have pre : ∀ c t, [IAC, c] <:+: [IAC, c] ++ t := fun c t => ⟨[], t, by simp⟩
  refine ⟨fun opt hin => ?_, fun opt hin => ?_, fun opt hin => ?_, fun body hin => ?_⟩
  · exact stripTelnet_pair s h WILL (Or.inl rfl) ((pre WILL [opt]).trans hin)
  · exact stripTelnet_pair s h WONT (Or.inr (Or.inl rfl)) ((pre WONT [opt]).trans hin)
  · exact stripTelnet_pair s h DO (Or.inr (Or.inr (Or.inl rfl))) ((pre DO [opt]).trans hin)
  · refine stripTelnet_pair s h SB (Or.inr (Or.inr (Or.inr rfl))) (List.IsInfix.trans ?_ hin)
    exact ⟨[], body ++ [IAC, SE], by simp⟩

theorem stripTelnet_no_negotiation_witness :
    stripTelnet [104, IAC, WILL, TELOPT_ECHO, 105, IAC, SB, TELOPT_TTYPE, TELQUAL_SEND, IAC, SE, 33]
      = [104, 105, 33] ∧
    ((∀ opt, ¬ [IAC, WILL, opt] <:+:
        stripTelnet [104, IAC, WILL, TELOPT_ECHO, 105, IAC, SB, TELOPT_TTYPE, TELQUAL_SEND, IAC, SE, 33]) ∧
    (∀ opt, ¬ [IAC, WONT, opt] <:+:
        stripTelnet [104, IAC, WILL, TELOPT_ECHO, 105, IAC, SB, TELOPT_TTYPE, TELQUAL_SEND, IAC, SE, 33]) ∧
    (∀ opt, ¬ [IAC, DO, opt] <:+:
        stripTelnet [104, IAC, WILL, TELOPT_ECHO, 105, IAC, SB, TELOPT_TTYPE, TELQUAL_SEND, IAC, SE, 33]) ∧
    (∀ body, ¬ ([IAC, SB] ++ body ++ [IAC, SE]) <:+:
        stripTelnet [104, IAC, WILL, TELOPT_ECHO, 105, IAC, SB, TELOPT_TTYPE, TELQUAL_SEND, IAC, SE, 33])) :=
  ⟨by decide, stripTelnet_no_negotiation _ (by decide)⟩

/-! ## The state machine of `processInput` -/

theorem rewinds_of_not_oneIAC (s : Socket) (c : Nat) (h : s.oneIAC = false) :
    rewinds s c = false := by
  simp [rewinds, h]

theorem tmpBufAt_nat (pre : Nat) (buf : Bytes) (k : Nat) :
    tmpBufAt pre buf (k : Int) = buf.getD k 0 := by
  simp [tmpBufAt]

/-- Without rewinds the loop is a left fold of the loop body over the bytes that
remain, and the fuel is enough as soon as it covers those bytes. -/
theorem processInputLoop_quiet (pre : Nat) (buf : Bytes) (fuel k : Nat) (st : Socket × Bytes)
    (hk : k ≤ buf.length) (hf : buf.length - k ≤ fuel) (hq : quiet st (buf.drop k)) :
    processInputLoop pre buf fuel (k : Int) st = some ((buf.drop k).foldl bodyStep st) := by
  induction fuel generalizing k st with
  | zero =>
    have hkl : k = buf.length := by omega
    subst hkl
    simp [processInputLoop]
  | succ f ih =>
    by_cases hlt : k < buf.length
    · have hd : buf.drop k = buf[k] :: buf.drop (k + 1) := List.drop_eq_getElem_cons hlt
      have hget : buf.getD k 0 = buf[k] := by
        simp [List.getD_eq_getElem?_getD, List.getElem?_eq_getElem hlt]
      rw [hd] at hq
      obtain ⟨hq1, hq2⟩ := hq
      have hlt2 : (k : Int) < (buf.length : Int) := by exact_mod_cast hlt
      simp only [processInputLoop, hlt2, if_true, tmpBufAt_nat, hget, hq1]
      have hcast : ((k : Int) + 1) = ((k + 1 : Nat) : Int) := by push_cast; rfl
      simp only [Bool.false_eq_true, if_false]
      rw [hcast, tmpBufAt_nat, hget, ih (k + 1) _ (by omega) (by omega) hq2, hd]
      rfl
    · have hkl : k = buf.length := by omega
      subst hkl
      simp [processInputLoop]

theorem processInputDecode_quiet (pre : Nat) (buf : Bytes) (s : Socket)
    (hq : quiet (s, []) buf) :
    processInputDecode pre buf s = some (buf.foldl bodyStep (s, [])) := by
  have h := processInputLoop_quiet pre buf (2 * buf.length) 0 (s, []) (by omega) (by omega)
    (by simpa using hq)
  simpa [processInputDecode] using h

theorem bodyStep_plain (s : Socket) (tmp : Bytes) (c : Nat) (hs : s.idle)
    (h1 : c ≠ IAC) (h2 : c ≠ ESC) : bodyStep (s, tmp) c = (s, tmp ++ [c]) := by
  obtain ⟨ht, _, hw⟩ := hs
  simp [bodyStep, watchStep, hw, switchStep, ht, h1, h2]

theorem quiet_plain (s : Socket) (tmp : Bytes) (buf : Bytes) (hs : s.idle)
    (h1 : IAC ∉ buf) (h2 : ESC ∉ buf) :
    quiet (s, tmp) buf ∧ buf.foldl bodyStep (s, tmp) = (s, tmp ++ buf) := by
  induction buf generalizing tmp with
  | nil => simp [quiet]
  | cons c cs ih =>
    have hc1 : c ≠ IAC := fun e => h1 (by simp [e])
    have hc2 : c ≠ ESC := fun e => h2 (by simp [e])
    have ih2 := ih (tmp ++ [c]) (fun e => h1 (by simp [e])) (fun e => h2 (by simp [e]))
    simp only [quiet, List.foldl_cons, bodyStep_plain s tmp c hs hc1 hc2]
    exact ⟨⟨rewinds_of_not_oneIAC s c hs.2.1, ih2.1⟩, by simpa using ih2.2⟩

/-- C3 (counterexample). The IAC-free read `ESC [ 1 z A LF` (the MXP-secure
trigger and one line) is consumed whole: the state machine is idle again and
the decoded text is empty, not the six input bytes. -/
theorem processInput_escape_not_identity :
    IAC ∉ ([ESC, 91, 49, 122, 65, 10] : Bytes) ∧
    reset.idle ∧
    processInputDecode 0 [ESC, 91, 49, 122, 65, 10] reset = some (reset, []) ∧
    (processInputDecode 0 [ESC, 91, 49, 122, 65, 10] reset).map Prod.snd
      ≠ some [ESC, 91, 49, 122, 65, 10] := by
  refine ⟨by decide, ⟨rfl, rfl, rfl⟩, by decide, by decide⟩

/-- C3 (amended). For every read whose bytes contain neither IAC (255) nor
ESC (27), processed from the idle state, the decoded text handed to the line
assembler equals the input bytes unchanged and the socket, hence the state
machine, is as before: idle. -/
theorem processInput_plain_identity (pre : Nat) (s : Socket) (buf : Bytes) (hs : s.idle)
    (h1 : IAC ∉ buf) (h2 : ESC ∉ buf) :
    processInputDecode pre buf s = some (s, buf) := by
  have h := quiet_plain s [] buf hs h1 h2
  rw [processInputDecode_quiet pre buf s h.1, h.2]
  simp

theorem processInput_plain_identity_witness :
    reset.idle ∧ IAC ∉ ([108, 111, 111, 107, 13, 10] : Bytes) ∧
    ESC ∉ ([108, 111, 111, 107, 13, 10] : Bytes) ∧
    processInputDecode 0 [108, 111, 111, 107, 13, 10] reset
      = some (reset, [108, 111, 111, 107, 13, 10]) :=
  ⟨⟨rfl, rfl, rfl⟩, by decide, by decide,
    processInput_plain_identity 0 reset [108, 111, 111, 107, 13, 10] ⟨rfl, rfl, rfl⟩
      (by decide) (by decide)⟩

/-- C4. From the idle state the read `IAC SB NAWS c1 c2 r1 r2 IAC SE` with
value bytes below 255 sets `term.cols = c1*256 + c2` and `term.rows = r1*256 + r2`,
changes nothing else, decodes no text and leaves the state machine idle. -/
theorem processInput_naws (pre : Nat) (s : Socket) (c1 c2 r1 r2 : Nat) (hs : s.idle)
    (h1 : c1 < 255) (h2 : c2 < 255) (h3 : r1 < 255) (h4 : r2 < 255) :
    processInputDecode pre [IAC, SB, TELOPT_NAWS, c1, c2, r1, r2, IAC, SE] s =
      some ({ s with term := { s.term with cols := (c1 : Int) * 256 + c2,
                                           rows := (r1 : Int) * 256 + r2 } }, []) ∧
    Socket.idle { s with term := { s.term with cols := (c1 : Int) * 256 + c2,
                                               rows := (r1 : Int) * 256 + r2 } } := by
  have e1 : c1 ≠ 255 := by omega
  have e2 : c2 ≠ 255 := by omega
  have e3 : r1 ≠ 255 := by omega
  have e4 : r2 ≠ 255 := by omega
  have e5 : ¬ ((r1 : Int) * 256 + (r2 : Int) = 255) := by omega
  refine ⟨?_, hs⟩
  obtain ⟨ht, ho, hw⟩ := hs
  have hq : quiet (s, []) [IAC, SB, TELOPT_NAWS, c1, c2, r1, r2, IAC, SE] := by
    simp [quiet, rewinds, bodyStep, watchStep, switchStep, handleNaws, ht, ho, hw,
      e1, e2, e3, e4, e5]
  rw [processInputDecode_quiet pre _ s hq]
  cases s
  simp only at ht ho hw
  subst ht ho hw
  simp [bodyStep, watchStep, switchStep, handleNaws, e1, e2, e3, e4, e5]

theorem processInput_naws_witness :
    reset.idle ∧ (0 : Nat) < 255 ∧ (132 : Nat) < 255 ∧ (50 : Nat) < 255 ∧
    (processInputDecode 0 [IAC, SB, TELOPT_NAWS, 0, 132, 0, 50, IAC, SE] reset =
      some ({ reset with term := { reset.term with cols := ((0 : Nat) : Int) * 256 + (132 : Nat),
                                                   rows := ((0 : Nat) : Int) * 256 + (50 : Nat) } }, []) ∧
    Socket.idle { reset with term := { reset.term with cols := ((0 : Nat) : Int) * 256 + (132 : Nat),
                                                       rows := ((0 : Nat) : Int) * 256 + (50 : Nat) } }) :=
  ⟨⟨rfl, rfl, rfl⟩, by decide, by decide, by decide,
    processInput_naws 0 reset 0 132 0 50 ⟨rfl, rfl, rfl⟩ (by decide) (by decide) (by decide)
      (by decide)⟩

/-! ## MSDP and TTYPE sub-negotiations -/

theorem quiet_append (st : Socket × Bytes) (a b : Bytes) :
    quiet st (a ++ b) ↔ quiet st a ∧ quiet (a.foldl bodyStep st) b := by
  induction a generalizing st with
  | nil => simp [quiet]
  | cons c cs ih => simp [quiet, ih, and_assoc]

/-- In the state NEG_SB_MSDP every byte other than IAC is appended to `cmdInBuf`. -/
theorem msdp_collect (s : Socket) (tmp : Bytes) (bytes : Bytes)
    (ht : s.tState = .NEG_SB_MSDP) (ho : s.oneIAC = false) (hw : s.watchBrokenClient = false)
    (h : IAC ∉ bytes) :
    quiet (s, tmp) bytes ∧
      bytes.foldl bodyStep (s, tmp) = ({ s with cmdInBuf := s.cmdInBuf ++ bytes }, tmp) := by
  induction bytes generalizing s with
  | nil => simp [quiet]
  | cons c cs ih =>
    have hc : c ≠ IAC := fun e => h (by simp [e])
    have hstep : bodyStep (s, tmp) c = ({ s with cmdInBuf := s.cmdInBuf ++ [c] }, tmp) := by
      simp [bodyStep, watchStep, hw, switchStep, ht, hc]
    have ih2 := ih { s with cmdInBuf := s.cmdInBuf ++ [c] } ht ho hw (fun e => h (by simp [e]))
    simp only [quiet, List.foldl_cons, hstep]
    refine ⟨⟨rewinds_of_not_oneIAC s c ho, ih2.1⟩, ?_⟩
    rw [ih2.2]
    simp

theorem msdpVarLoop_name (var name rest : Bytes) (h : MSDP_VAL ∉ name) :
    msdpVarLoop var (name ++ MSDP_VAL :: rest) = (var ++ name, MSDP_VAL :: rest) := by
  induction name generalizing var with
  | nil => simp [msdpVarLoop]
  | cons c cs ih =>
    have hc : c ≠ MSDP_VAL := fun e => h (by simp [e])
    rw [List.cons_append, msdpVarLoop, if_neg hc, ih (var ++ [c]) (fun e => h (by simp [e]))]
    simp

theorem msdpValLoop_nested (v : Bytes) (hv : MsdpNested v) :
    ∀ (d : Int) (acc rest : Bytes), 0 < d →
      msdpValLoop d acc (v ++ rest) = msdpValLoop d (acc ++ v) rest := by
  induction hv with
  | nil => intro d acc rest _; simp
  | byte b h1 h2 h3 h4 h5 =>
    intro d acc rest hd
    have hd0 : d ≠ 0 := by omega
    simp [msdpValLoop, h1, h2, h3, h4, h5, hd0]
  | table v _ ih =>
    intro d acc rest hd
    have e : (MSDP_TABLE_OPEN :: v ++ [MSDP_TABLE_CLOSE]) ++ rest
        = MSDP_TABLE_OPEN :: (v ++ (MSDP_TABLE_CLOSE :: rest)) := by simp
    rw [e]
    simp only [msdpValLoop]
    simp only [show ¬ (MSDP_TABLE_OPEN = IAC) by decide, if_false, true_or, if_true]
    rw [ih (d + 1) _ _ (by omega)]
    simp [msdpValLoop]
  | array v _ ih =>
    intro d acc rest hd
    have e : (MSDP_ARRAY_OPEN :: v ++ [MSDP_ARRAY_CLOSE]) ++ rest
        = MSDP_ARRAY_OPEN :: (v ++ (MSDP_ARRAY_CLOSE :: rest)) := by simp
    rw [e]
    simp only [msdpValLoop]
    simp only [show ¬ (MSDP_ARRAY_OPEN = IAC) by decide, if_false, or_true, if_true]
    rw [ih (d + 1) _ _ (by omega)]
    simp [msdpValLoop]
  | append v w _ _ ihv ihw =>
    intro d acc rest hd
    rw [List.append_assoc, ihv d _ _ hd, ihw d _ _ hd]
    simp

theorem msdpValLoop_value (v : Bytes) (hv : MsdpValue v) :
    ∀ (acc rest : Bytes),
      msdpValLoop 0 acc (v ++ rest) = msdpValLoop 0 (acc ++ v) rest := by
  induction hv with
  | nil => intro acc rest; simp
  | byte b h1 h2 h3 h4 h5 h6 h7 =>
    intro acc rest
    simp [msdpValLoop, h1, h2, h3, h4, h5, h6, h7]
  | table v hn =>
    intro acc rest
    have e : (MSDP_TABLE_OPEN :: v ++ [MSDP_TABLE_CLOSE]) ++ rest
        = MSDP_TABLE_OPEN :: (v ++ (MSDP_TABLE_CLOSE :: rest)) := by simp
    rw [e]
    simp only [msdpValLoop]
    simp only [show ¬ (MSDP_TABLE_OPEN = IAC) by decide, if_false, true_or, if_true]
    rw [msdpValLoop_nested v hn (0 + 1) _ _ (by omega)]
    simp [msdpValLoop]
  | array v hn =>
    intro acc rest
    have e : (MSDP_ARRAY_OPEN :: v ++ [MSDP_ARRAY_CLOSE]) ++ rest
        = MSDP_ARRAY_OPEN :: (v ++ (MSDP_ARRAY_CLOSE :: rest)) := by simp
    rw [e]
    simp only [msdpValLoop]
    simp only [show ¬ (MSDP_ARRAY_OPEN = IAC) by decide, if_false, or_true, if_true]
    rw [msdpValLoop_nested v hn (0 + 1) _ _ (by omega)]
    simp [msdpValLoop]
  | append v w _ _ ihv ihw =>
    intro acc rest
    rw [List.append_assoc, ihv, ihw]
    simp

theorem msdpNested_no_IAC {v : Bytes} (hv : MsdpNested v) : IAC ∉ v := by
  induction hv with
  | nil => simp
  | byte b h1 _ _ _ _ => simp; exact fun e => h1 e.symm
  | table v _ ih => simp; exact ih
  | array v _ ih => simp; exact ih
  | append v w _ _ ihv ihw => simp; exact ⟨ihv, ihw⟩

theorem msdpValue_no_IAC {v : Bytes} (hv : MsdpValue v) : IAC ∉ v := by
  induction hv with
  | nil => simp
  | byte b h1 _ _ _ _ _ _ => simp; exact fun e => h1 e.symm
  | table v hn => simp; exact msdpNested_no_IAC hn
  | array v hn => simp; exact msdpNested_no_IAC hn
  | append v w _ _ ihv ihw => simp; exact ⟨ihv, ihw⟩

/-- The parse of a completed buffer `VAR name VAL value IAC`. -/
theorem parseMsdpLoop_pair (fuel : Nat) (name value : Bytes) (hn : MSDP_VAL ∉ name)
    (hv : MsdpValue value) :
    parseMsdpLoop (fuel + 3) (MSDP_VAR :: name ++ MSDP_VAL :: value ++ [IAC]) [] [] 0 []
      = [(name, value)] := by
  have e : MSDP_VAR :: name ++ MSDP_VAL :: value ++ [IAC]
      = MSDP_VAR :: (name ++ MSDP_VAL :: (value ++ [IAC])) := by simp
  rw [e]
  simp only [parseMsdpLoop]
  simp only [show ¬ (MSDP_VAR = SE) by decide, if_false, if_true]
  rw [msdpVarLoop_name [] name _ hn]
  simp only [List.nil_append, parseMsdpLoop]
  simp only [show ¬ (MSDP_VAL = SE) by decide, show ¬ (MSDP_VAL = MSDP_VAR) by decide,
    if_false, if_true]
  rw [msdpValLoop_value value hv [] [IAC]]
  simp [msdpValLoop, parseMsdpLoop]
  cases fuel <;> simp [parseMsdpLoop]

/-- Framing of an MSDP sub-negotiation: from the idle state the IAC-free
payload between `IAC SB MSDP` and `IAC SE` is collected in `cmdInBuf`, followed
by the IAC, and handed to `parseMsdp`. -/
theorem processInput_msdp_frame (pre : Nat) (s : Socket) (payload : Bytes) (hs : s.idle)
    (hp : IAC ∉ payload) :
    processInputDecode pre ([IAC, SB, TELOPT_MSDP] ++ payload ++ [IAC, SE]) s =
      some ({ parseMsdp { s with cmdInBuf := s.cmdInBuf ++ payload ++ [IAC] } with
              tState := .NEG_NONE }, []) := by
  obtain ⟨ht, ho, hw⟩ := hs
  have h1 : [IAC, SB, TELOPT_MSDP].foldl bodyStep (s, [])
      = ({ s with tState := .NEG_SB_MSDP }, []) := by
    simp [bodyStep, watchStep, switchStep, ht, hw]
  have hq1 : quiet (s, []) [IAC, SB, TELOPT_MSDP] := by
    simp [quiet, rewinds, bodyStep, watchStep, switchStep, ht, ho, hw]
  have h2 := msdp_collect { s with tState := .NEG_SB_MSDP } [] payload rfl ho hw hp
  have hq : quiet (s, []) ([IAC, SB, TELOPT_MSDP] ++ payload ++ [IAC, SE]) := by
    rw [quiet_append, quiet_append, h1, List.foldl_append, h1, h2.2]
    refine ⟨⟨hq1, h2.1⟩, ?_⟩
    simp [quiet, rewinds, bodyStep, watchStep, switchStep, ho, hw]
  rw [processInputDecode_quiet pre _ s hq, List.foldl_append, List.foldl_append, h1, h2.2]
  simp [bodyStep, watchStep, switchStep, hw, parseMsdp]
  split <;> simp

/-- In the state NEG_SB_TTYPE every byte other than IS and IAC is appended to
`term.type`. -/
theorem ttype_collect (s : Socket) (tmp : Bytes) (bytes : Bytes)
    (ht : s.tState = .NEG_SB_TTYPE) (ho : s.oneIAC = false) (hw : s.watchBrokenClient = false)
    (h0 : TELQUAL_IS ∉ bytes) (h : IAC ∉ bytes) :
    quiet (s, tmp) bytes ∧
      bytes.foldl bodyStep (s, tmp)
        = ({ s with term := { s.term with type := s.term.type ++ bytes } }, tmp) := by
  induction bytes generalizing s with
  | nil => simp [quiet]
  | cons c cs ih =>
    have hc : c ≠ IAC := fun e => h (by simp [e])
    have hc0 : c ≠ TELQUAL_IS := fun e => h0 (by simp [e])
    have hstep : bodyStep (s, tmp) c
        = ({ s with term := { s.term with type := s.term.type ++ [c] } }, tmp) := by
      simp [bodyStep, watchStep, hw, switchStep, ht, hc, hc0]
    have ih2 := ih { s with term := { s.term with type := s.term.type ++ [c] } } ht ho hw
      (fun e => h0 (by simp [e])) (fun e => h (by simp [e]))
    simp only [quiet, List.foldl_cons, hstep]
    refine ⟨⟨rewinds_of_not_oneIAC s c ho, ih2.1⟩, ?_⟩
    rw [ih2.2]
    simp

theorem ttypeEnd_tState (s : Socket) (t : TState) :
    { ttypeEnd s with tState := t } = ttypeEnd { s with tState := t } := by
  simp only [ttypeEnd, Socket.write, Socket.call]
  split_ifs <;> rfl

/-- Framing of a TTYPE response: the name is stored in `term.type`, the old
type in `term.lastType`, and `ttypeEnd` runs on the closing `IAC SE`. -/
theorem processInput_ttype_frame (pre : Nat) (s : Socket) (name : Bytes) (hs : s.idle)
    (h0 : TELQUAL_IS ∉ name) (h : IAC ∉ name) :
    processInputDecode pre ([IAC, SB, TELOPT_TTYPE, TELQUAL_IS] ++ name ++ [IAC, SE]) s =
      some (ttypeEnd { s with term := { s.term with lastType := s.term.type, type := name } },
        []) := by
  obtain ⟨ht, ho, hw⟩ := hs
  have h1 : [IAC, SB, TELOPT_TTYPE, TELQUAL_IS].foldl bodyStep (s, [])
      = ({ s with term := { s.term with lastType := s.term.type, type := [] },
                  tState := .NEG_SB_TTYPE }, []) := by
    simp [bodyStep, watchStep, switchStep, ht, hw]
  have hq1 : quiet (s, []) [IAC, SB, TELOPT_TTYPE, TELQUAL_IS] := by
    simp [quiet, rewinds, bodyStep, watchStep, switchStep, ht, ho, hw]
  have h2 := ttype_collect
    ({ s with term := { s.term with lastType := s.term.type, type := [] },
              tState := .NEG_SB_TTYPE }) [] name rfl ho hw h0 h
  have hq : quiet (s, []) ([IAC, SB, TELOPT_TTYPE, TELQUAL_IS] ++ name ++ [IAC, SE]) := by
    rw [quiet_append, quiet_append, h1, List.foldl_append, h1, h2.2]
    refine ⟨⟨hq1, h2.1⟩, ?_⟩
    simp [quiet, rewinds, bodyStep, watchStep, switchStep, ho, hw]
  rw [processInputDecode_quiet pre _ s hq, List.foldl_append, List.foldl_append, h1, h2.2]
  have h3 : ∀ x : Socket, x.tState = .NEG_SB_TTYPE → x.watchBrokenClient = false →
      [IAC, SE].foldl bodyStep (x, [])
        = (ttypeEnd { x with tState := .NEG_NONE }, []) := by
    intro x hx hxw
    simp [bodyStep, watchStep, switchStep, hx, hxw, ttypeEnd_tState]
  rw [h3]
  · cases s
    simp only at ht ho hw
    subst ht ho hw
    rfl
  · rfl
  · exact hw

theorem ttypeEnd_calls (s : Socket) :
    (ttypeEnd s).calls = s.calls ++
      (if s.term.firstType ≠ s.term.type ∧ (s.term.lastType = [] ∨ s.term.type ≠ s.term.lastType)
       then [Effect.write query_ttype false true] else []) := by
  simp only [ttypeEnd, Socket.write, Socket.call]
  split_ifs <;> simp

theorem ttypeEnd_idle (s : Socket) (hs : s.idle) : (ttypeEnd s).idle := by
  obtain ⟨ht, ho, hw⟩ := hs
  simp only [ttypeEnd, Socket.write, Socket.call, Socket.idle]
  split_ifs <;> exact ⟨ht, ho, hw⟩

/-- C5 (counterexample). With MSDP enabled, (a) the value `IAC IAC`, free of
MSDP marker bytes, is not captured: the single pair dispatched for
`VAR "X" VAL IAC IAC` is `("X", "")`; (b) the name `A VAL B` makes
`VAR name VAL "Y"` dispatch two pairs, `("A","B")` and `("A","Y")`. -/
theorem processInput_msdp_not_whole :
    processInputDecode 0
        ([IAC, SB, TELOPT_MSDP] ++ (MSDP_VAR :: str "X" ++ MSDP_VAL :: [IAC, IAC]) ++ [IAC, SE])
        msdpOn
      = some ({ msdpOn with calls := [Effect.processMsdpVarVal (str "X") []] }, []) ∧
    processInputDecode 0
        ([IAC, SB, TELOPT_MSDP] ++ (MSDP_VAR :: [65, MSDP_VAL, 66] ++ MSDP_VAL :: str "Y")
          ++ [IAC, SE]) msdpOn
      = some ({ msdpOn with calls := [Effect.processMsdpVarVal [65] [66],
                                      Effect.processMsdpVarVal [65] (str "Y")] }, []) := by
  constructor <;> decide

/-- C5 (amended). With MSDP enabled, from the idle state with an empty
sub-negotiation buffer, for every name without VAL and IAC bytes and every
IAC-free value made of non-marker bytes and balanced tables and arrays (inner
VAR and VAL bytes allowed), the read `IAC SB MSDP VAR name VAL value IAC SE`
makes `parseMsdp` dispatch exactly one pair, `(name, value)` with the value
whole, decodes no text and leaves the socket otherwise unchanged. -/
theorem processInput_msdp_pair (pre : Nat) (s : Socket) (name value : Bytes) (hs : s.idle)
    (hb : s.cmdInBuf = []) (hm : s.opts.msdp = true) (hn1 : MSDP_VAL ∉ name)
    (hn2 : IAC ∉ name) (hv : MsdpValue value) :
    processInputDecode pre
        ([IAC, SB, TELOPT_MSDP] ++ (MSDP_VAR :: name ++ MSDP_VAL :: value) ++ [IAC, SE]) s =
      some ({ s with calls := s.calls ++ [Effect.processMsdpVarVal name value] }, []) := by
  have hp : IAC ∉ MSDP_VAR :: name ++ MSDP_VAL :: value := by
    have := msdpValue_no_IAC hv
    simp [hn2, this]
  rw [processInput_msdp_frame pre s _ hs hp]
  obtain ⟨ht, ho, hw⟩ := hs
  have hlen : (MSDP_VAR :: name ++ MSDP_VAL :: value ++ [IAC]).length
      = (name.length + value.length) + 3 := by
    simp; omega
  have hparse := parseMsdpLoop_pair (name.length + value.length) name value hn1 hv
  cases s
  simp only at ht ho hw hb hm
  subst ht ho hw hb
  simp only [parseMsdp, List.nil_append, hlen, hparse, hm]
  simp

theorem msdpValue_example :
    MsdpValue [MSDP_TABLE_OPEN, MSDP_VAR, 65, MSDP_VAL, 66, MSDP_TABLE_CLOSE] :=
  MsdpValue.table [MSDP_VAR, 65, MSDP_VAL, 66]
    (MsdpNested.append [MSDP_VAR] [65, MSDP_VAL, 66]
      (MsdpNested.byte MSDP_VAR (by decide) (by decide) (by decide) (by decide) (by decide))
      (MsdpNested.append [65] [MSDP_VAL, 66]
        (MsdpNested.byte 65 (by decide) (by decide) (by decide) (by decide) (by decide))
        (MsdpNested.append [MSDP_VAL] [66]
          (MsdpNested.byte MSDP_VAL (by decide) (by decide) (by decide) (by decide) (by decide))
          (MsdpNested.byte 66 (by decide) (by decide) (by decide) (by decide) (by decide)))))

theorem processInput_msdp_pair_witness :
    msdpOn.idle ∧ msdpOn.cmdInBuf = [] ∧ msdpOn.opts.msdp = true ∧
    MSDP_VAL ∉ str "X" ∧ IAC ∉ str "X" ∧
    MsdpValue [MSDP_TABLE_OPEN, MSDP_VAR, 65, MSDP_VAL, 66, MSDP_TABLE_CLOSE] ∧
    processInputDecode 0
        ([IAC, SB, TELOPT_MSDP] ++
          (MSDP_VAR :: str "X" ++
            MSDP_VAL :: [MSDP_TABLE_OPEN, MSDP_VAR, 65, MSDP_VAL, 66, MSDP_TABLE_CLOSE]) ++
          [IAC, SE]) msdpOn =
      some ({ msdpOn with calls := msdpOn.calls ++
          [Effect.processMsdpVarVal (str "X")
            [MSDP_TABLE_OPEN, MSDP_VAR, 65, MSDP_VAL, 66, MSDP_TABLE_CLOSE]] }, []) :=
  ⟨⟨rfl, rfl, rfl⟩, rfl, rfl, by decide, by decide, msdpValue_example,
    processInput_msdp_pair 0 msdpOn (str "X")
      [MSDP_TABLE_OPEN, MSDP_VAR, 65, MSDP_VAL, 66, MSDP_TABLE_CLOSE]
      ⟨rfl, rfl, rfl⟩ rfl rfl (by decide) (by decide) msdpValue_example⟩

/-- C6 (counterexample). On a fresh connection, after `IAC WILL TTYPE`, the
first TTYPE response ever, "dumb", is neither the first type seen (none is
recorded) nor a repeat of a prior response (there is none), and yet no TTYPE
query is sent: the calls are those made for `IAC WILL TTYPE` alone. -/
theorem processInput_ttype_first_dumb :
    (startTelnetNeg reset).term.firstType = [] ∧
    (processReads 0 (startTelnetNeg reset) [[IAC, WILL, TELOPT_TTYPE]]).map Socket.calls
      = some [Effect.write do_ttype false true, Effect.write query_ttype false true,
          Effect.write will_comp2 false true, Effect.write will_comp1 false true,
          Effect.write do_naws false true, Effect.write will_msdp false true,
          Effect.write will_mssp false true, Effect.write will_msp false true,
          Effect.write will_mxp false true, Effect.write will_eor false true] ∧
    (processReads 0 (startTelnetNeg reset)
        [[IAC, WILL, TELOPT_TTYPE], ttypeResponse (str "dumb")]).map Socket.calls
      = (processReads 0 (startTelnetNeg reset) [[IAC, WILL, TELOPT_TTYPE]]).map Socket.calls := by
  refine ⟨rfl, by decide, by decide⟩

/-- C6 (amended). On completion of a TTYPE response `IAC SB TTYPE IS name IAC SE`
(name without NUL and IAC bytes, state machine idle) a new TTYPE query is sent
if and only if name differs from the recorded first terminal type and the
value that `term.type` held before the response (initially "dumb") is empty or
differs from name.  For the responses "ansi", "xterm-256color", "ansi" after
`IAC WILL TTYPE` on a fresh connection, xterm256 is true after the second
response and no query is sent after the third. -/
theorem processInput_ttype_polling (pre : Nat) (s : Socket) (name : Bytes) (hs : s.idle)
    (h0 : TELQUAL_IS ∉ name) (h : IAC ∉ name) :
    (∃ s2 : Socket, processInputDecode pre (ttypeResponse name) s = some (s2, []) ∧ s2.idle ∧
      s2.calls = s.calls ++
        (if s.term.firstType ≠ name ∧ (s.term.type = [] ∨ name ≠ s.term.type)
         then [Effect.write query_ttype false true] else [])) ∧
    ((processReads 0 (startTelnetNeg reset)
        [[IAC, WILL, TELOPT_TTYPE], ttypeResponse (str "ansi"),
          ttypeResponse (str "xterm-256color")]).map (fun x => (x.opts.xterm256, x.calls))
      = some (true,
          [Effect.write do_ttype false true, Effect.write query_ttype false true,
            Effect.write will_comp2 false true, Effect.write will_comp1 false true,
            Effect.write do_naws false true, Effect.write will_msdp false true,
            Effect.write will_mssp false true, Effect.write will_msp false true,
            Effect.write will_mxp false true, Effect.write will_eor false true,
            Effect.write query_ttype false true, Effect.write query_ttype false true]) ∧
     (processReads 0 (startTelnetNeg reset)
        [[IAC, WILL, TELOPT_TTYPE], ttypeResponse (str "ansi"),
          ttypeResponse (str "xterm-256color"), ttypeResponse (str "ansi")]).map Socket.calls
      = (processReads 0 (startTelnetNeg reset)
        [[IAC, WILL, TELOPT_TTYPE], ttypeResponse (str "ansi"),
          ttypeResponse (str "xterm-256color")]).map Socket.calls) := by
  refine ⟨⟨_, processInput_ttype_frame pre s name hs h0 h, ttypeEnd_idle _ hs, ?_⟩,
    by decide, by decide⟩
  rw [ttypeEnd_calls]

theorem processInput_ttype_polling_witness :
    (startTelnetNeg reset).idle ∧ TELQUAL_IS ∉ str "ansi" ∧ IAC ∉ str "ansi" ∧
    ∃ s2 : Socket,
      processInputDecode 0 (ttypeResponse (str "ansi")) (startTelnetNeg reset) = some (s2, []) ∧
      s2.idle ∧
      s2.calls = (startTelnetNeg reset).calls ++
        (if (startTelnetNeg reset).term.firstType ≠ str "ansi" ∧
            ((startTelnetNeg reset).term.type = [] ∨ str "ansi" ≠ (startTelnetNeg reset).term.type)
         then [Effect.write query_ttype false true] else []) :=
  ⟨⟨rfl, rfl, rfl⟩, by decide, by decide,
    (processInput_ttype_polling 0 (startTelnetNeg reset) (str "ansi") ⟨rfl, rfl, rfl⟩
      (by decide) (by decide)).1⟩

/-! ## The pager -/

theorem sendPagesLoop_eq (n : Nat) (s : Socket) (h : n ≤ s.pagerOutput.length) :
    sendPagesLoop n s =
      { s with output := s.output ++ printedLines (s.pagerOutput.take n),
               pagerOutput := s.pagerOutput.drop n,
               paged := s.paged + (n : Int) } := by
  induction n generalizing s with
  | zero => simp [sendPagesLoop, printedLines]
  | succ m ih =>
    cases s with
    | mk term opts tState oneIAC wbc cmdInBuf inBuf output pagerOutput paged oc z calls =>
      cases pagerOutput with
      | nil => simp at h
      | cons line rest =>
        simp only [sendPagesLoop, println, bprint]
        rw [ih _ (by simpa using h)]
        simp [printedLines]
        omega

/-- The number of lines one continuation releases. -/
theorem pageSize_eq (s : Socket) :
    (min (getMaxPages s) (s.pagerOutput.length : Int)).toNat
      = min (max (s.term.rows - 2) 10).toNat s.pagerOutput.length := by
  simp only [getMaxPages, MIN_PAGES]
  omega

theorem handlePaging_empty (s : Socket) :
    handlePaging s [] =
      { s with
        output := s.output ++ printedLines
          (s.pagerOutput.take (min (max (s.term.rows - 2) 10).toNat s.pagerOutput.length)),
        pagerOutput :=
          s.pagerOutput.drop (min (max (s.term.rows - 2) 10).toNat s.pagerOutput.length),
        paged :=
          if s.pagerOutput.drop (min (max (s.term.rows - 2) 10).toNat s.pagerOutput.length) = []
          then 0
          else s.paged + ((min (max (s.term.rows - 2) 10).toNat s.pagerOutput.length : Nat) : Int),
        calls :=
          if s.pagerOutput.drop (min (max (s.term.rows - 2) 10).toNat s.pagerOutput.length) = []
          then s.calls
          else s.calls ++ [Effect.printColor pagerPrompt,
                           Effect.print (if s.opts.eor then EOR_STR else GA_STR)] } := by
  have hk := pageSize_eq s
  have hle : min (max (s.term.rows - 2) 10).toNat s.pagerOutput.length ≤ s.pagerOutput.length :=
    Nat.min_le_right _ _
  simp only [handlePaging, if_true, sendPages, hk]
  rw [sendPagesLoop_eq _ s hle]
  by_cases hd : s.pagerOutput.drop (min (max (s.term.rows - 2) 10).toNat s.pagerOutput.length) = []
  · simp [hd]
  · simp only [hd, ne_eq, not_false_eq_true, if_true, if_false, askFor, Socket.call]
    split <;> simp [hd]
theorem printedLines_append (a b : List Bytes) :
    printedLines (a ++ b) = printedLines a ++ printedLines b := by
  simp [printedLines]

theorem take_min_length (k : Nat) (q : List Bytes) : q.take (min k q.length) = q.take k := by
  by_cases h : k ≤ q.length
  · rw [Nat.min_eq_left h]
  · rw [Nat.min_eq_right (by omega), List.take_length, List.take_of_length_le (by omega)]

theorem drop_min_length (k : Nat) (q : List Bytes) : q.drop (min k q.length) = q.drop k := by
  by_cases h : k ≤ q.length
  · rw [Nat.min_eq_left h]
  · rw [Nat.min_eq_right (by omega), List.drop_length, List.drop_of_length_le (by omega)]

/-- One continuation on a terminal of 24 rows. -/
theorem handlePaging_rows24 (s : Socket) (hr : s.term.rows = 24) :
    (handlePaging s []).pagerOutput = s.pagerOutput.drop 22 ∧
    (handlePaging s []).output = s.output ++ printedLines (s.pagerOutput.take 22) ∧
    (handlePaging s []).term.rows = 24 ∧
    ((handlePaging s []).pagerOutput = [] → (handlePaging s []).paged = 0) := by
  have hk : (max (s.term.rows - 2) 10).toNat = 22 := by rw [hr]; decide
  rw [handlePaging_empty s, hk]
  simp only [take_min_length, drop_min_length]
  refine ⟨trivial, trivial, hr, ?_⟩
  intro h
  simp only [h, if_true]

theorem continuePaging_rows24 (s : Socket) (hr : s.term.rows = 24) (j : Nat) :
    (continuePaging j s).pagerOutput = s.pagerOutput.drop (22 * j) ∧
    (continuePaging j s).output = s.output ++ printedLines (s.pagerOutput.take (22 * j)) ∧
    (continuePaging j s).term.rows = 24 ∧
    (0 < j → (continuePaging j s).pagerOutput = [] → (continuePaging j s).paged = 0) := by
  induction j generalizing s with
  | zero => simp [continuePaging, printedLines, hr]
  | succ n ih =>
    obtain ⟨h1, h2, h3, h4⟩ := handlePaging_rows24 s hr
    obtain ⟨i1, i2, i3, i4⟩ := ih (handlePaging s []) h3
    simp only [continuePaging]
    refine ⟨?_, ?_, i3, ?_⟩
    · rw [i1, h1, List.drop_drop]
      congr 1
      omega
    · rw [i2, h1, h2, List.append_assoc, ← printedLines_append]
      congr 2
      have : 22 * (n + 1) = 22 + 22 * n := by omega
      rw [this, List.take_add]
    · intro _ hq
      cases n with
      | zero => simpa [continuePaging] using h4 (by simpa [continuePaging] using hq)
      | succ m => exact i4 (by omega) hq

/-- C7. For every socket (terminal rows R, pager queue of L lines),
`handlePaging("")` releases exactly the first `min(max(R-2,10), L)` queued
lines, in queue order, and keeps the rest in order; once the queue is empty the
page counter is 0.  With R = 24 and L = 100 five continuations release the
lines in batches of 22, 22, 22, 22 and 12, and the pager is then idle. -/
theorem handlePaging_batches (s : Socket) :
    (handlePaging s []).output = s.output ++ printedLines
        (s.pagerOutput.take (min (max (s.term.rows - 2) 10).toNat s.pagerOutput.length)) ∧
    (handlePaging s []).pagerOutput =
        s.pagerOutput.drop (min (max (s.term.rows - 2) 10).toNat s.pagerOutput.length) ∧
    ((handlePaging s []).pagerOutput = [] → (handlePaging s []).paged = 0) ∧
    (s.term.rows = 24 → s.pagerOutput.length = 100 →
      ((continuePaging 1 s).output = s.output ++ printedLines (s.pagerOutput.take 22) ∧
        (continuePaging 1 s).pagerOutput = s.pagerOutput.drop 22) ∧
      ((continuePaging 2 s).output = s.output ++ printedLines (s.pagerOutput.take 44) ∧
        (continuePaging 2 s).pagerOutput = s.pagerOutput.drop 44) ∧
      ((continuePaging 3 s).output = s.output ++ printedLines (s.pagerOutput.take 66) ∧
        (continuePaging 3 s).pagerOutput = s.pagerOutput.drop 66) ∧
      ((continuePaging 4 s).output = s.output ++ printedLines (s.pagerOutput.take 88) ∧
        (continuePaging 4 s).pagerOutput = s.pagerOutput.drop 88 ∧
        (s.pagerOutput.drop 88).length = 12) ∧
      ((continuePaging 5 s).output = s.output ++ printedLines s.pagerOutput ∧
        (continuePaging 5 s).pagerOutput = [] ∧ (continuePaging 5 s).paged = 0)) := by
  refine ⟨?_, ?_, ?_, ?_⟩
  · rw [handlePaging_empty s]
  · rw [handlePaging_empty s]
  · rw [handlePaging_empty s]
    intro h
    simp only at h
    simp only [h, if_true]
  · intro hr hl
    have c1 := continuePaging_rows24 s hr 1
    have c2 := continuePaging_rows24 s hr 2
    have c3 := continuePaging_rows24 s hr 3
    have c4 := continuePaging_rows24 s hr 4
    have c5 := continuePaging_rows24 s hr 5
    have e5 : s.pagerOutput.drop (22 * 5) = [] := List.drop_of_length_le (by omega)
    have t5 : s.pagerOutput.take (22 * 5) = s.pagerOutput := List.take_of_length_le (by omega)
    rw [e5] at c5
    rw [t5] at c5
    refine ⟨⟨c1.2.1, c1.1⟩, ⟨c2.2.1, c2.1⟩, ⟨c3.2.1, c3.1⟩, ⟨c4.2.1, c4.1, ?_⟩,
      ⟨c5.2.1, c5.1, c5.2.2.2 (by decide) c5.1⟩⟩
    rw [List.length_drop, hl]

theorem handlePaging_batches_witness :
    pagerDemo.term.rows = 24 ∧ pagerDemo.pagerOutput.length = 100 ∧
    (continuePaging 4 pagerDemo).pagerOutput = pagerDemo.pagerOutput.drop 88 ∧
    (continuePaging 5 pagerDemo).output = pagerDemo.output ++ printedLines pagerDemo.pagerOutput ∧
    (continuePaging 5 pagerDemo).pagerOutput = [] ∧ (continuePaging 5 pagerDemo).paged = 0 :=
  ⟨rfl, by decide,
    ((handlePaging_batches pagerDemo).2.2.2 rfl (by decide)).2.2.2.1.2.1,
    ((handlePaging_batches pagerDemo).2.2.2 rfl (by decide)).2.2.2.2⟩

/-! ## The output encoder -/

/-- C8. With colour disabled, for every text whose only special sequences are
caret colour codes (no newline, no tag-open byte), `Socket::parseForOutput`
returns the text with every two-byte code removed and every other byte kept in
its original order. -/
theorem parseForOutput_strips_codes (s : Socket) (ansi : Nat → Bytes) (ts : List OutTok)
    (hc : s.opts.color = NO_COLOR) (ht : ∀ t ∈ ts, t.ordinary) :
    parseForOutput s ansi (renderToks ts) = plainOf ts := by
  unfold parseForOutput
  induction ts with
  | nil => simp [renderToks, parseForOutputLoop, plainOf]
  | cons t rest ih =>
    have ih2 := ih (fun x hx => ht x (List.mem_cons_of_mem t hx))
    have h0 := ht t (List.mem_cons_self t rest)
    cases t with
    | plain b =>
      obtain ⟨h1, h2, h3⟩ := h0
      have e : renderToks (OutTok.plain b :: rest) = b :: renderToks rest := by
        simp [renderToks, OutTok.bytes]
      rw [e, parseForOutputLoop.eq_def]
      simp only [if_neg h3, if_neg h1, if_neg h2, plainOf]
      rw [ih2]
    | code c =>
      have e : renderToks (OutTok.code c :: rest) = 94 :: c :: renderToks rest := by
        simp [renderToks, OutTok.bytes]
      rw [e, parseForOutputLoop.eq_def]
      simpa [getColorCode, hc, plainOf] using ih2

theorem parseForOutput_strips_codes_witness :
    reset.opts.color = NO_COLOR ∧
    (∀ t ∈ [OutTok.code 114, OutTok.plain 72, OutTok.plain 105, OutTok.code 120, OutTok.plain 33],
      t.ordinary) ∧
    parseForOutput reset (fun _ => [ESC, 91, 109])
        (renderToks [OutTok.code 114, OutTok.plain 72, OutTok.plain 105, OutTok.code 120,
          OutTok.plain 33])
      = plainOf [OutTok.code 114, OutTok.plain 72, OutTok.plain 105, OutTok.code 120,
          OutTok.plain 33] :=
  ⟨rfl, by simp [OutTok.ordinary],
    parseForOutput_strips_codes reset (fun _ => [ESC, 91, 109]) _ rfl
      (by simp [OutTok.ordinary])⟩

/-! ## The compressed output path -/

/-- C10 (the code at the failing input). Ten bytes are staged and the transport
accepts the first four, then answers would-block: `processCompressed` leaves
by `return (-1)` before the `memmove`, so the staging buffer still holds all
ten bytes (not the six unwritten ones) and `next_out` has not moved; the next
flush, on a transport that accepts everything, writes the four accepted bytes
a second time. -/
theorem processCompressed_wouldBlock_keeps_written :
    processCompressed
        { outCompressBuf := [1, 2, 3, 4, 5, 6, 7, 8, 9, 10],
          fd := { answers := [Answer.accept 4, Answer.wouldBlock], sent := [] } }
      = some ({ outCompressBuf := [1, 2, 3, 4, 5, 6, 7, 8, 9, 10],
                fd := { answers := [], sent := [1, 2, 3, 4] } }, 2 ^ 64 - 1) ∧
    processCompressed
        { outCompressBuf := [1, 2, 3, 4, 5, 6, 7, 8, 9, 10],
          fd := { answers := [], sent := [1, 2, 3, 4] } }
      = some ({ outCompressBuf := [],
                fd := { answers := [], sent := [1, 2, 3, 4, 1, 2, 3, 4, 5, 6, 7, 8, 9, 10] } },
              10) := by
  constructor <;> decide

/-- C9 (the code at the failing input). With the identity codec, for which
inflating is the identity, the five bytes 10..50 are written while the
transport accepts two bytes and then answers would-block; a later write of the
byte 60 flushes the staging buffer.  The transport has then accepted
`10 20 10 20 30 40 50 60`: the first two bytes twice, not the six bytes
written. -/
theorem writeCompressed_wouldBlock_duplicates :
    writeCompressed storedZlib ()
        { outCompressBuf := [], fd := { answers := [Answer.accept 2, Answer.wouldBlock], sent := [] } }
        [10, 20, 30, 40, 50]
      = some ((), { outCompressBuf := [10, 20, 30, 40, 50],
                    fd := { answers := [], sent := [10, 20] } }, -1) ∧
    writeCompressed storedZlib ()
        { outCompressBuf := [10, 20, 30, 40, 50], fd := { answers := [], sent := [10, 20] } }
        [60]
      = some ((), { outCompressBuf := [],
                    fd := { answers := [], sent := [10, 20, 10, 20, 30, 40, 50, 60] } }, 6) ∧
    ([10, 20, 10, 20, 30, 40, 50, 60] : Bytes) ≠ [10, 20, 30, 40, 50] ++ [60] := by
  refine ⟨by decide, by decide, by decide⟩

/-! ## Options without a case in `negotiate` -/

/-- The `default:` case of `Socket::negotiate`: only `tState` changes. -/
theorem negotiate_unsupported (s : Socket) (opt : Nat) (h : opt ∉ supportedOptions) :
    negotiate s opt = { s with tState := .NEG_NONE } := by
  simp only [supportedOptions, List.mem_cons, List.mem_singleton, not_or, List.not_mem_nil,
    not_false_eq_true, and_true] at h
  obtain ⟨h1, h2, h3, h4, h5, h6, h7, h8, h9, h10, h11, h12⟩ := h
  simp [negotiate, h1, h2, h3, h4, h5, h6, h7, h8, h9, h10, h11, h12]

/-- After `IAC cmd opt` with `cmd` one of WILL, WONT, DO, DONT and an option
without a case in `negotiate`, the socket is what it was. -/
theorem unsupported_steps (s : Socket) (cmd opt : Nat) (hs : s.idle)
    (hc : cmd = WILL ∨ cmd = WONT ∨ cmd = DO ∨ cmd = DONT) (h : opt ∉ supportedOptions) :
    quiet (s, []) [IAC, cmd, opt] ∧ [IAC, cmd, opt].foldl bodyStep (s, []) = (s, []) := by
  obtain ⟨ht, ho, hw⟩ := hs
  have hneg : ∀ x : Socket, negotiate x opt = { x with tState := .NEG_NONE } :=
    fun x => negotiate_unsupported x opt h
  cases s
  simp only at ht ho hw
  subst ht ho hw
  rcases hc with rfl | rfl | rfl | rfl <;>
    simp [quiet, rewinds, bodyStep, watchStep, switchStep, hneg]

/-- C13 (counterexample). `IAC DO 3` (suppress-go-ahead, an option without a
case in `negotiate`) and `IAC WILL 3` on a socket after `reset` leave the list
of outgoing calls empty: no `IAC WONT 3` and no `IAC DONT 3` is written. -/
theorem processInput_no_refusal :
    (3 : Nat) ∉ supportedOptions ∧
    (processInputDecode 0 [IAC, DO, 3] reset).map (fun r => r.1.calls) = some [] ∧
    (processInputDecode 0 [IAC, WILL, 3] reset).map (fun r => r.1.calls) = some [] := by
  refine ⟨by decide, by decide, by decide⟩

/-- C13 (amended). For every option byte without a case in `negotiate`,
`IAC DO opt` and `IAC WILL opt` (as `IAC WONT opt` and `IAC DONT opt`), read in
the idle state, emit nothing and change nothing: the socket, its list of
outgoing calls included, is as before, hence idle, and the data bytes that
follow (no IAC, no ESC) are decoded unchanged. -/
theorem processInput_unsupported_option (pre : Nat) (s : Socket) (cmd opt : Nat) (data : Bytes)
    (hs : s.idle) (hc : cmd = WILL ∨ cmd = WONT ∨ cmd = DO ∨ cmd = DONT)
    (h : opt ∉ supportedOptions) (h1 : IAC ∉ data) (h2 : ESC ∉ data) :
    processInputDecode pre ([IAC, cmd, opt] ++ data) s = some (s, data) := by
  obtain ⟨hq1, hf1⟩ := unsupported_steps s cmd opt hs hc h
  obtain ⟨hq2, hf2⟩ := quiet_plain s [] data hs h1 h2
  have hq : quiet (s, []) ([IAC, cmd, opt] ++ data) := by
    rw [quiet_append, hf1]
    exact ⟨hq1, hq2⟩
  rw [processInputDecode_quiet pre _ s hq, List.foldl_append, hf1, hf2]
  simp

theorem processInput_unsupported_option_witness :
    reset.idle ∧ (DO = WILL ∨ DO = WONT ∨ DO = DO ∨ DO = DONT) ∧ (3 : Nat) ∉ supportedOptions ∧
    IAC ∉ ([104, 105, 10] : Bytes) ∧ ESC ∉ ([104, 105, 10] : Bytes) ∧
    processInputDecode 0 ([IAC, DO, 3] ++ [104, 105, 10]) reset = some (reset, [104, 105, 10]) :=
  ⟨⟨rfl, rfl, rfl⟩, by decide, by decide, by decide, by decide,
    processInput_unsupported_option 0 reset DO 3 [104, 105, 10] ⟨rfl, rfl, rfl⟩ (by decide)
      (by decide) (by decide) (by decide)⟩

/-! ## MXP tags in the output encoder -/

/-- Outside a tag, bytes other than caret, newline and the tag-open byte are
copied. -/
theorem parseForOutputLoop_plain (mxp : Bool) (code : Nat → Bytes) (pre rest : Bytes)
    (h : ∀ b ∈ pre, b ≠ 94 ∧ b ≠ 10 ∧ b ≠ CH_MXP_BEG) :
    parseForOutputLoop mxp code false (pre ++ rest)
      = pre ++ parseForOutputLoop mxp code false rest := by
  induction pre with
  | nil => simp
  | cons b t ih =>
    obtain ⟨h1, h2, h3⟩ := h b (List.mem_cons_self b t)
    rw [List.cons_append, parseForOutputLoop.eq_def]
    simp only [if_neg h3, if_neg h1, if_neg h2]
    rw [ih (fun x hx => h x (List.mem_cons_of_mem b hx))]
    simp

/-- Inside a tag, bytes other than the tag-close byte are copied when MXP is
enabled and dropped when it is not. -/
theorem parseForOutputLoop_body (mxp : Bool) (code : Nat → Bytes) (body rest : Bytes)
    (h : CH_MXP_END ∉ body) :
    parseForOutputLoop mxp code true (body ++ rest)
      = (if mxp then body else []) ++ parseForOutputLoop mxp code true rest := by
  induction body with
  | nil => cases mxp <;> simp
  | cons b t ih =>
    have hb : b ≠ CH_MXP_END := fun e => h (by simp [e])
    rw [List.cons_append, parseForOutputLoop.eq_def]
    simp only [if_neg hb]
    rw [ih (fun e => h (by simp [e]))]
    cases mxp <;> simp

/-- C18. For every text `pre ++ [0x16] ++ body ++ [0x04] ++ post` in which
body contains no 0x04 and pre and post contain no caret, newline or 0x16,
`Socket::parseForOutput` returns `pre ++ ESC"[1z<" ++ body ++ ">" ESC"[7z" ++ post`
when MXP is enabled and `pre ++ post` when it is disabled. -/
theorem parseForOutput_mxp_tag (s : Socket) (ansi : Nat → Bytes) (pre body post : Bytes)
    (hpre : ∀ b ∈ pre, b ≠ 94 ∧ b ≠ 10 ∧ b ≠ CH_MXP_BEG)
    (hbody : CH_MXP_END ∉ body)
    (hpost : ∀ b ∈ post, b ≠ 94 ∧ b ≠ 10 ∧ b ≠ CH_MXP_BEG) :
    parseForOutput s ansi (pre ++ [CH_MXP_BEG] ++ body ++ [CH_MXP_END] ++ post) =
      if s.opts.mxp then
        pre ++ (MXP_SECURE_OPEN ++ [60]) ++ body ++ ([62] ++ MXP_LOCK_CLOSE) ++ post
      else pre ++ post := by
  have e : pre ++ [CH_MXP_BEG] ++ body ++ [CH_MXP_END] ++ post
      = pre ++ (CH_MXP_BEG :: (body ++ (CH_MXP_END :: (post ++ [])))) := by simp
  unfold parseForOutput
  rw [e, parseForOutputLoop_plain _ _ pre _ hpre, parseForOutputLoop.eq_def]
  simp only [if_true]
  rw [parseForOutputLoop_body _ _ body _ hbody, parseForOutputLoop.eq_def]
  simp only [if_true]
  rw [parseForOutputLoop_plain _ _ post [] hpost]
  cases hm : s.opts.mxp <;> simp [parseForOutputLoop]

theorem parseForOutput_mxp_tag_witness :
    (∀ b ∈ ([71, 111, 32] : Bytes), b ≠ 94 ∧ b ≠ 10 ∧ b ≠ CH_MXP_BEG) ∧
    CH_MXP_END ∉ ([115, 101, 110, 100, 32, 94, 120] : Bytes) ∧
    (∀ b ∈ ([33] : Bytes), b ≠ 94 ∧ b ≠ 10 ∧ b ≠ CH_MXP_BEG) ∧
    parseForOutput reset (fun _ => [])
        ([71, 111, 32] ++ [CH_MXP_BEG] ++ [115, 101, 110, 100, 32, 94, 120] ++ [CH_MXP_END] ++ [33]) =
      if reset.opts.mxp then
        [71, 111, 32] ++ (MXP_SECURE_OPEN ++ [60]) ++ [115, 101, 110, 100, 32, 94, 120]
          ++ ([62] ++ MXP_LOCK_CLOSE) ++ [33]
      else [71, 111, 32] ++ [33] :=
  ⟨by decide, by decide, by decide,
    parseForOutput_mxp_tag reset (fun _ => []) [71, 111, 32] [115, 101, 110, 100, 32, 94, 120] [33]
      (by decide) (by decide) (by decide)⟩

/-! ## Termination of the state machine and the negotiation cascade -/

/-- The states strictly between NEG_START_NAWS and NEG_END_NAWS. -/
theorem naws_state_cases (t : TState) (h1 : TState.NEG_START_NAWS.val < t.val)
    (h2 : t.val < TState.NEG_END_NAWS.val) :
    t = .NEG_SB_NAWS_COL_HIGH ∨ t = .NEG_SB_NAWS_COL_LOW ∨ t = .NEG_SB_NAWS_ROW_HIGH ∨
      t = .NEG_SB_NAWS_ROW_LOW := by
  cases t <;> revert h1 h2 <;> decide

/-- The pass that follows a rewind clears `oneIAC`, so the index is not
stepped back twice in a row. -/
theorem rewinds_bodyStep (st : Socket × Bytes) (c p : Nat) (h : rewinds st.1 c = true) :
    ∀ c2, rewinds (bodyStep st p).1 c2 = false := by
  intro c2
  obtain ⟨s, tmp⟩ := st
  simp only [rewinds, Bool.and_eq_true, decide_eq_true_eq] at h
  obtain ⟨⟨⟨ho, h1⟩, h2⟩, _⟩ := h
  apply rewinds_of_not_oneIAC
  have ht := naws_state_cases s.tState h1 h2
  cases s with
  | mk term opts tState oneIAC wbc cmdInBuf inBuf output pagerOutput paged oc z calls =>
    simp only at ho ht
    subst ho
    rcases ht with rfl | rfl | rfl | rfl <;>
      cases wbc <;> simp [bodyStep, watchStep, switchStep, handleNaws] <;> split <;> simp

/-- The loop of the state machine always runs to the end of the read: a fuel
of twice the remaining bytes is enough, one less when the next pass cannot
rewind. -/
theorem processInputLoop_some (pre : Nat) (buf : Bytes) (fuel k : Nat) (st : Socket × Bytes)
    (hk : k ≤ buf.length)
    (hf : 2 * (buf.length - k) ≤ fuel ∨
      (2 * (buf.length - k) ≤ fuel + 1 ∧ ∀ c, rewinds st.1 c = false)) :
    ∃ r, processInputLoop pre buf fuel (k : Int) st = some r := by
  induction fuel generalizing k st with
  | zero =>
    have hkl : k = buf.length := by omega
    subst hkl
    exact ⟨st, by simp [processInputLoop]⟩
  | succ f ih =>
    by_cases hlt : k < buf.length
    · have hlt2 : (k : Int) < (buf.length : Int) := by exact_mod_cast hlt
      simp only [processInputLoop, hlt2, if_true]
      by_cases hr : rewinds st.1 (tmpBufAt pre buf (k : Int)) = true
      · simp only [hr, if_true]
        have hidx : (k : Int) - 1 + 1 = (k : Int) := by omega
        rw [hidx]
        have hA : 2 * (buf.length - k) ≤ f + 1 := by
          rcases hf with h | ⟨_, h⟩
          · exact h
          · rw [h _] at hr; exact absurd hr (by simp)
        exact ih k _ hk (Or.inr ⟨hA, rewinds_bodyStep st _ _ hr⟩)
      · simp only [hr, if_false]
        have hcast : ((k : Int) + 1) = ((k + 1 : Nat) : Int) := by push_cast; rfl
        simp only [Bool.false_eq_true, if_false]
        rw [hcast]
        exact ih (k + 1) _ (by omega) (Or.inl (by omega))
    · have hkl : k = buf.length := by omega
      subst hkl
      exact ⟨st, by simp [processInputLoop]⟩

theorem processInputDecode_some (pre : Nat) (buf : Bytes) (s : Socket) :
    ∃ r, processInputDecode pre buf s = some r := by
  have h := processInputLoop_some pre buf (2 * buf.length) 0 (s, []) (by omega)
    (Or.inl (by omega))
  simpa [processInputDecode] using h

/-- A property of the socket that every pass of the loop body keeps holds
after the loop. -/
theorem processInputLoop_inv (P : Socket → Prop)
    (hP : ∀ s tmp c, P s → P (bodyStep (s, tmp) c).1)
    (pre : Nat) (buf : Bytes) (fuel : Nat) (i : Int) (st r : Socket × Bytes)
    (h : processInputLoop pre buf fuel i st = some r) (h0 : P st.1) : P r.1 := by
  induction fuel generalizing i st with
  | zero =>
    simp only [processInputLoop] at h
    split at h
    · exact absurd h (by simp)
    · simp only [Option.some.injEq] at h
      subst h; exact h0
  | succ f ih =>
    simp only [processInputLoop] at h
    split at h
    · exact ih _ _ h (hP st.1 st.2 _ h0)
    · simp only [Option.some.injEq] at h
      subst h; exact h0
theorem sameOffers_refl (s : Socket) : SameOffers s s := ⟨rfl, rfl⟩

theorem sameOffers_trans {a b c : Socket} (h1 : SameOffers a b) (h2 : SameOffers b c) :
    SameOffers a c := ⟨h2.1.trans h1.1, h2.2.trans h1.2⟩

/-- A call that is no cascade offer keeps the offers. -/
theorem sameOffers_call (s : Socket) (e : Effect) (h : isOffer e = false) :
    SameOffers s (s.call e) := by
  simp [SameOffers, Socket.call, List.filter_append, h]

theorem sameOffers_calls (s : Socket) (es : List Effect) (h : ∀ e ∈ es, isOffer e = false)
    (s2 : Socket) (hd : s2.opts.dumb = s.opts.dumb) (hc : s2.calls = s.calls ++ es) :
    SameOffers s s2 := by
  refine ⟨hd, ?_⟩
  rw [hc, List.filter_append]
  have : es.filter isOffer = [] := by
    rw [List.filter_eq_nil_iff]
    intro e he
    simp [h e he]
  simp [this]

theorem watchStep_sameOffers (s : Socket) (c : Nat) : SameOffers s (watchStep s c) := by
  simp only [watchStep]
  split_ifs <;> exact ⟨rfl, rfl⟩

theorem ttypeEnd_sameOffers (s : Socket) : SameOffers s (ttypeEnd s) := by
  refine sameOffers_calls s
    (if s.term.firstType ≠ s.term.type ∧ (s.term.lastType = [] ∨ s.term.type ≠ s.term.lastType)
     then [Effect.write query_ttype false true] else []) ?_ _ ?_ (ttypeEnd_calls s)
  · intro e he
    split_ifs at he
    · simp only [List.mem_singleton] at he
      subst he; decide
    · simp at he
  · simp only [ttypeEnd, Socket.write, Socket.call]
    split_ifs <;> rfl

theorem parseMsdp_sameOffers (s : Socket) : SameOffers s (parseMsdp s) := by
  by_cases hm : s.opts.msdp = true
  · refine sameOffers_calls s
      ((parseMsdpLoop s.cmdInBuf.length s.cmdInBuf [] [] 0 []).map
        (fun p => Effect.processMsdpVarVal p.1 p.2)) ?_ _ ?_ ?_
    · intro e he
      simp only [List.mem_map] at he
      obtain ⟨p, _, rfl⟩ := he
      simp [isOffer, cascadeOffers]
    · simp [parseMsdp, hm]
    · simp [parseMsdp, hm]
  · simp only [parseMsdp, hm]
    exact ⟨rfl, rfl⟩

theorem parseMXPSecure_sameOffers (s : Socket) : SameOffers s (parseMXPSecure s) := by
  simp only [parseMXPSecure, SameOffers]
  split_ifs <;> exact ⟨rfl, rfl⟩

theorem isOffer_facts :
    isOffer (Effect.write charset_utf8 false true) = false ∧
    isOffer (Effect.write start_mxp true true) = false ∧
    isOffer Effect.defineMxp = false ∧
    isOffer (Effect.write start_mccp2 false true) = false ∧
    isOffer (Effect.write start_mccp false true) = false ∧
    isOffer Effect.processCompressed = false ∧
    isOffer Effect.deflateEnd = false ∧
    isOffer Effect.sendMSSP = false ∧
    isOffer (Effect.msdpSend (str "SERVER_ID")) = false := by
  decide

theorem startCompress_sameOffers (s : Socket) (silent : Bool) :
    SameOffers s (startCompress s silent) := by
  obtain ⟨e1, e2, e3, e4, e5, e6, e7, e8, e9⟩ := isOffer_facts
  simp only [startCompress, Socket.write, Socket.call, SameOffers]
  split_ifs <;> simp [List.filter_append, e4, e5]

theorem endCompress_sameOffers (s : Socket) : SameOffers s (endCompress s) := by
  obtain ⟨e1, e2, e3, e4, e5, e6, e7, e8, e9⟩ := isOffer_facts
  simp only [endCompress, Socket.call, SameOffers]
  split_ifs <;> simp [List.filter_append, e6, e7]

/-- Once the dumb flag is cleared `negotiate` writes no cascade offer. -/
theorem negotiate_sameOffers (s : Socket) (ch : Nat) (hd : s.opts.dumb = false) :
    SameOffers s (negotiate s ch) := by
  obtain ⟨e1, e2, e3, e4, e5, e6, e7, e8, e9⟩ := isOffer_facts
  by_cases hch : ch ∈ supportedOptions
  · have key : ∀ x : Socket, SameOffers s x → SameOffers s { x with tState := .NEG_NONE } :=
      fun x h => ⟨h.1, h.2⟩
    have upd : ∀ (o : SockOptions), o.dumb = s.opts.dumb → SameOffers s { s with opts := o } :=
      fun o h => ⟨h, rfl⟩
    have hsc := startCompress_sameOffers
    have hec := endCompress_sameOffers
    simp only [supportedOptions, List.mem_cons, List.mem_singleton, List.not_mem_nil,
      or_false] at hch
    cases s with
    | mk term opts tState oneIAC wbc cmdInBuf inBuf output pagerOutput paged oc z calls =>
      simp only at hd
      rcases hch with rfl | rfl | rfl | rfl | rfl | rfl | rfl | rfl | rfl | rfl | rfl | rfl
      · cases tState <;>
          simp [negotiate, SameOffers, Socket.write, Socket.call, List.filter_append, e1]
      · cases tState <;> simp [negotiate, SameOffers, hd]
      · cases tState <;>
          simp [negotiate, SameOffers, Socket.write, Socket.call, List.filter_append, e2, e3]
      · cases tState <;> simp only [negotiate] <;> simp <;>
          first
            | exact ⟨rfl, rfl⟩
            | exact sameOffers_trans (upd _ rfl) (hsc _ _)
            | (split
               · exact sameOffers_trans (upd _ rfl) (hec _)
               · exact ⟨rfl, rfl⟩)
      · cases tState <;> simp only [negotiate] <;> simp <;>
          first
            | exact ⟨rfl, rfl⟩
            | exact sameOffers_trans (upd _ rfl) (hsc _ _)
            | (split
               · exact sameOffers_trans (upd _ rfl) (hec _)
               · exact ⟨rfl, rfl⟩)
      · cases tState <;> simp [negotiate, SameOffers]
      · simp [negotiate, SameOffers]
      · simp [negotiate, SameOffers]
      · simp [negotiate, SameOffers]
      · cases tState <;> simp [negotiate, SameOffers, Socket.call, List.filter_append, e8]
      · cases tState <;> simp [negotiate, SameOffers]
      · cases tState <;> simp [negotiate, SameOffers, Socket.call, List.filter_append, e9]
  · rw [negotiate_unsupported s ch hch]
    exact ⟨rfl, rfl⟩

theorem handleNaws_sameOffers (s : Socket) (colRow : Int) (chr : Nat) (high : Bool) :
    SameOffers s (handleNaws s colRow chr high).1 := by
  simp only [handleNaws]
  split_ifs <;> exact ⟨rfl, rfl⟩

theorem switchStep_sameOffers (s : Socket) (tmp : Bytes) (c : Nat) (hd : s.opts.dumb = false) :
    SameOffers s (switchStep s tmp c).1 := by
  have hn := negotiate_sameOffers s c hd
  have hm := parseMsdp_sameOffers s
  have ht := ttypeEnd_sameOffers s
  have hx := parseMXPSecure_sameOffers { s with tState := .NEG_NONE }
  have n1 := handleNaws_sameOffers s s.term.cols c true
  have n2 := handleNaws_sameOffers s s.term.cols c false
  have n3 := handleNaws_sameOffers s s.term.rows c true
  have n4 := handleNaws_sameOffers s s.term.rows c false
  cases hts : s.tState <;> simp only [switchStep, hts] <;> (repeat' split) <;>
    first
      | exact ⟨rfl, rfl⟩
      | exact hn
      | exact hm
      | exact ht
      | exact hx
      | exact n1
      | exact n2
      | exact n3
      | exact n4

theorem bodyStep_sameOffers (s : Socket) (tmp : Bytes) (c : Nat) (hd : s.opts.dumb = false) :
    SameOffers s (bodyStep (s, tmp) c).1 := by
  have h1 := watchStep_sameOffers s c
  have hd1 : (watchStep s c).opts.dumb = false := h1.1.trans hd
  exact sameOffers_trans h1 (switchStep_sameOffers (watchStep s c) tmp c hd1)

/-- C19. On a socket whose dumb flag is set (a fresh connection), `IAC WILL
TTYPE` emits, in this order, the TTYPE query and the offers WILL COMPRESS2,
WILL COMPRESS, DO NAWS, WILL MSDP, WILL MSSP, WILL MSP, WILL MXP, WILL EOR;
`IAC WONT TTYPE` emits `IAC WONT TTYPE` and the same offers without the query;
both clear the dumb flag, and once it is cleared no read, whatever its bytes,
emits any of the offers again. -/
theorem processInput_ttype_cascade (pre : Nat) (s : Socket) (hs : s.idle)
    (hd : s.opts.dumb = true) :
    (∃ s2 : Socket, processInputDecode pre [IAC, WILL, TELOPT_TTYPE] s = some (s2, []) ∧
      s2.opts.dumb = false ∧
      s2.calls = s.calls ++ (Effect.write query_ttype false true :: cascadeOffers)) ∧
    (∃ s2 : Socket, processInputDecode pre [IAC, WONT, TELOPT_TTYPE] s = some (s2, []) ∧
      s2.opts.dumb = false ∧
      s2.calls = s.calls ++ (Effect.write wont_ttype true true :: cascadeOffers)) ∧
    (∀ (t : Socket) (pre2 : Nat) (buf : Bytes), t.opts.dumb = false →
      ∃ r, processInputDecode pre2 buf t = some r ∧ r.1.opts.dumb = false ∧
        r.1.calls.filter isOffer = t.calls.filter isOffer) := by
  obtain ⟨ht, ho, hw⟩ := hs
  refine ⟨?_, ?_, ?_⟩
  · have hq : quiet (s, []) [IAC, WILL, TELOPT_TTYPE] := by
      simp [quiet, rewinds, bodyStep, watchStep, switchStep, negotiate, ht, ho, hw]
    have hf : [IAC, WILL, TELOPT_TTYPE].foldl bodyStep (s, [])
        = (negotiate { s with tState := .NEG_WILL } TELOPT_TTYPE, []) := by
      simp [bodyStep, watchStep, switchStep, ht, hw]
    rw [processInputDecode_quiet pre _ s hq, hf]
    refine ⟨negotiate { s with tState := .NEG_WILL } TELOPT_TTYPE, rfl, ?_, ?_⟩
    · simp [negotiate, continueTelnetNeg, hd, Socket.write, Socket.call]
    · simp [negotiate, continueTelnetNeg, hd, Socket.write, Socket.call, cascadeOffers]
  · have hq : quiet (s, []) [IAC, WONT, TELOPT_TTYPE] := by
      simp [quiet, rewinds, bodyStep, watchStep, switchStep, negotiate, ht, ho, hw]
    have hf : [IAC, WONT, TELOPT_TTYPE].foldl bodyStep (s, [])
        = (negotiate { s with tState := .NEG_WONT } TELOPT_TTYPE, []) := by
      simp [bodyStep, watchStep, switchStep, ht, hw]
    rw [processInputDecode_quiet pre _ s hq, hf]
    refine ⟨negotiate { s with tState := .NEG_WONT } TELOPT_TTYPE, rfl, ?_, ?_⟩
    · simp [negotiate, continueTelnetNeg, hd, Socket.write, Socket.call]
    · simp [negotiate, continueTelnetNeg, hd, Socket.write, Socket.call, cascadeOffers]
  · intro t pre2 buf htd
    obtain ⟨r, hr⟩ := processInputDecode_some pre2 buf t
    refine ⟨r, hr, ?_⟩
    have hinv := processInputLoop_inv
      (fun x => x.opts.dumb = false ∧ x.calls.filter isOffer = t.calls.filter isOffer)
      (fun x tmp c hx => by
        have h := bodyStep_sameOffers x tmp c hx.1
        exact ⟨h.1.trans hx.1, h.2.trans hx.2⟩)
      pre2 buf (2 * buf.length) 0 (t, []) r hr ⟨htd, rfl⟩
    exact hinv

theorem processInput_ttype_cascade_witness :
    reset.idle ∧ reset.opts.dumb = true ∧
    (∃ s2 : Socket, processInputDecode 0 [IAC, WILL, TELOPT_TTYPE] reset = some (s2, []) ∧
      s2.opts.dumb = false ∧
      s2.calls = reset.calls ++ (Effect.write query_ttype false true :: cascadeOffers)) :=
  ⟨⟨rfl, rfl, rfl⟩, rfl, (processInput_ttype_cascade 0 reset ⟨rfl, rfl, rfl⟩ rfl).1⟩

/-! ## Command splitting -/

theorem findFrom_newline_none (text : Bytes) (i : Nat) (h : 10 ∉ text) :
    findFrom [10] text i = none := by
  induction text generalizing i with
  | nil => simp [findFrom, List.isPrefixOf]
  | cons c t ih =>
    have hc : ¬ (10 = c) := fun e => h (by simp [e])
    simp only [findFrom, List.isPrefixOf, beq_iff_eq, Bool.and_true, hc, if_false]
    exact ih (i + 1) (fun e => h (by simp [e]))

theorem findFrom_newline_some (seg tail : Bytes) (i : Nat) (h : 10 ∉ seg) :
    findFrom [10] (seg ++ 10 :: tail) i = some (i + seg.length) := by
  induction seg generalizing i with
  | nil => simp [findFrom, List.isPrefixOf]
  | cons c t ih =>
    have hc : ¬ (10 = c) := fun e => h (by simp [e])
    rw [List.cons_append, findFrom]
    simp only [List.isPrefixOf, beq_iff_eq, Bool.and_true, hc, if_false]
    rw [ih (i + 1) (fun e => h (by simp [e]))]
    simp only [List.length_cons]
    congr 1
    omega

/-- A text has no newline, or a first one. -/
theorem first_newline (text : Bytes) :
    10 ∉ text ∨ ∃ seg tail, text = seg ++ 10 :: tail ∧ 10 ∉ seg := by
  induction text with
  | nil => left; simp
  | cons c t ih =>
    by_cases hc : c = 10
    · right; exact ⟨[], t, by simp [hc], by simp⟩
    · rcases ih with h | ⟨seg, tail, e, hs⟩
      · left
        intro hm
        rcases List.mem_cons.1 hm with e | e
        · exact hc e.symm
        · exact h e
      · right
        refine ⟨c :: seg, tail, by simp [e], ?_⟩
        intro hm
        rcases List.mem_cons.1 hm with e2 | e2
        · exact hc e2.symm
        · exact hs e2

theorem commandLoop_spec (n : Nat) : ∀ (inBuf : Bytes), inBuf.length ≤ n →
    ∀ (fuel : Nat), n + 1 ≤ fuel → ∀ (input : List Bytes),
    ∃ cmds rest, commandLoop fuel inBuf input = some (input ++ cmds, rest) ∧
      Splits inBuf cmds rest := by
  induction n with
  | zero =>
    intro inBuf hl fuel hf input
    have he : inBuf = [] := List.length_eq_zero.1 (by omega)
    subst he
    obtain ⟨f, rfl⟩ : ∃ f, fuel = f + 1 := ⟨fuel - 1, by omega⟩
    exact ⟨[], [], by simp [commandLoop, find, findFrom, List.isPrefixOf],
      Splits.done [] (by simp)⟩
  | succ m ih =>
    intro inBuf hl fuel hf input
    obtain ⟨f, rfl⟩ : ∃ f, fuel = f + 1 := ⟨fuel - 1, by omega⟩
    rcases first_newline inBuf with h | ⟨seg, tail, e, hs⟩
    · refine ⟨[], inBuf, ?_, Splits.done inBuf h⟩
      simp [commandLoop, find, findFrom_newline_none inBuf 0 h]
    · subst e
      have hfind : find (seg ++ 10 :: tail) [10] = some seg.length := by
        simp [find, findFrom_newline_some seg tail 0 hs]
      have hlen : tail.length ≤ m := by
        simp only [List.length_append, List.length_cons] at hl
        omega
      cases tail with
      | nil =>
        obtain ⟨cmds, rest, h1, h2⟩ := ih [] (by simp) f (by omega) (input ++ [seg])
        refine ⟨seg :: cmds, rest, ?_, Splits.one seg [] cmds rest hs (by simp) h2⟩
        simp only [commandLoop, hfind]
        have hg : (seg ++ [10]).getD (seg.length + 1) 0 = 0 := by
          rw [List.getD_append_right _ _ _ _ (by omega)]
          simp
        simp only [hg]
        have hd : (seg ++ [10]).drop (seg.length + 1) = [] := by
          apply List.drop_of_length_le; simp
        simp only [show ¬ ((0 : Nat) = 10) by decide, if_false, hd]
        rw [List.take_left' rfl, h1]
        simp
      | cons d tail2 =>
        by_cases hd10 : d = 10
        · subst hd10
          obtain ⟨cmds, rest, h1, h2⟩ :=
            ih tail2 (by simp only [List.length_cons] at hlen; omega) f (by omega)
              (input ++ [seg])
          refine ⟨seg :: cmds, rest, ?_, Splits.two seg tail2 cmds rest hs h2⟩
          simp only [commandLoop, hfind]
          have hg : (seg ++ 10 :: 10 :: tail2).getD (seg.length + 1) 0 = 10 := by
            rw [List.getD_append_right _ _ _ _ (by omega)]
            simp
          simp only [hg, if_true]
          have hd : (seg ++ 10 :: 10 :: tail2).drop (seg.length + 1 + 1) = tail2 := by
            have : seg ++ 10 :: 10 :: tail2 = (seg ++ [10, 10]) ++ tail2 := by simp
            rw [this]
            exact List.drop_left' (by simp)
          rw [hd, List.take_left' rfl, h1]
          simp
        · obtain ⟨cmds, rest, h1, h2⟩ := ih (d :: tail2) hlen f (by omega) (input ++ [seg])
          refine ⟨seg :: cmds, rest, ?_,
            Splits.one seg (d :: tail2) cmds rest hs (by simp [hd10]) h2⟩
          simp only [commandLoop, hfind]
          have hg : (seg ++ 10 :: d :: tail2).getD (seg.length + 1) 0 = d := by
            rw [List.getD_append_right _ _ _ _ (by omega)]
            simp
          simp only [hg, if_neg hd10]
          have hd : (seg ++ 10 :: d :: tail2).drop (seg.length + 1) = d :: tail2 := by
            have : seg ++ 10 :: d :: tail2 = (seg ++ [10]) ++ d :: tail2 := by simp
            rw [this]
            exact List.drop_left' (by simp)
          rw [hd, List.take_left' rfl, h1]
          simp

theorem splits_no_newline {buf : Bytes} {cmds : List Bytes} {rest : Bytes}
    (h : Splits buf cmds rest) : (∀ c ∈ cmds, 10 ∉ c) ∧ 10 ∉ rest := by
  induction h with
  | done rest hr => exact ⟨by simp, hr⟩
  | one seg tail cmds rest hs _ _ ih =>
    refine ⟨?_, ih.2⟩
    intro c hc
    rcases List.mem_cons.1 hc with e | e
    · subst e; exact hs
    · exact ih.1 c e
  | two seg tail cmds rest hs _ ih =>
    refine ⟨?_, ih.2⟩
    intro c hc
    rcases List.mem_cons.1 hc with e | e
    · subst e; exact hs
    · exact ih.1 c e

/-- C17. For every buffer content the command-splitting loop of
`Socket::processInput` ends and queues, in order, exactly the segments that
precede each terminator (a newline together with one immediately following
newline, if present); no queued command contains a newline and the residual
buffer is the newline-free text after the last terminator. -/
theorem splitCommands_spec (inBuf : Bytes) :
    ∃ cmds rest, splitCommands inBuf = some (cmds, rest) ∧ Splits inBuf cmds rest ∧
      (∀ c ∈ cmds, 10 ∉ c) ∧ 10 ∉ rest := by
  obtain ⟨cmds, rest, h1, h2⟩ :=
    commandLoop_spec inBuf.length inBuf le_rfl (inBuf.length + 1) le_rfl []
  exact ⟨cmds, rest, by simpa [splitCommands] using h1, h2, splits_no_newline h2⟩

/-! ## Backspaces and the pager queue -/

/-- C15 (the code at the failing input). The rolling buffer is empty and the
decoded text is BS `a` `b`: the backspace stands at position 0 of a buffer of
three bytes, the guard `n < 2` does not hold, and `inBuf.erase(i - 1, 2)` is
called with the position -1, which throws `std::out_of_range`; the buffer is
not cleared. -/
theorem backspacePass_throws : backspacePass [] [8, 97, 98] = some Pass.outOfRange := by
  decide

/-- C16 (the code at the failing input). Appending `a` `b` BS BS to an empty
buffer leaves `a` BS: after the first backspace has erased `b` and itself the
index is stepped back by one only, so the second backspace, now at position 1,
is never examined. -/
theorem backspacePass_skips_second :
    backspacePass [] [97, 98, 8, 8] = some (Pass.ok [97, 8]) := by
  decide

/-- C14 (the code at the failing input). From an empty queue, `appendPaged("foo")`
followed by `appendPaged("bar\n")` queues the lines "foo", "bar", "", whereas
`appendPaged("foobar\n")` queues "foobar", "": the partial line "foo" and the
first line of the second text stay two lines. -/
theorem appendPaged_splits_partial_line :
    (appendPaged (appendPaged reset (str "foo")) (str "bar\n")).pagerOutput
      = [str "foo", str "bar", []] ∧
    (appendPaged reset (str "foo" ++ str "bar\n")).pagerOutput = [str "foobar", []] := by
  constructor <;> decide

/-! ## The output path -/

/-- `Socket::write` does not touch the options of the socket. -/
theorem write_opts {Z : Type} (zl : Zlib Z) (ansi : Nat → Bytes) (o : OutSock Z)
    (toWrite : Bytes) (pSpy process : Bool) (r : OutSock Z × Int)
    (h : o.write zl ansi toWrite pSpy process = some r) : r.1.opts = o.opts := by
  unfold OutSock.write at h
  simp only at h
  split at h
  · split at h
    · exact absurd h (by simp)
    · injection h with h; subst h; rfl
    · injection h with h; subst h
      simp only [OutSock.finish]
      split_ifs <;> rfl
  · split at h
    · exact absurd h (by simp)
    · injection h with h; subst h; rfl
    · injection h with h; subst h; rfl

/-- With colour disabled the colour table is never consulted. -/
theorem getColorCode_off (ansi : Nat → Bytes) :
    getColorCode NO_COLOR ansi = getColorCode NO_COLOR (fun _ => []) := by
  funext ch
  simp [getColorCode]

/-- `Socket::write` on a socket with colour disabled does not depend on the
colour table. -/
theorem write_colorOff {Z : Type} (zl : Zlib Z) (ansi : Nat → Bytes) (o : OutSock Z)
    (h : o.opts.color = NO_COLOR) (toWrite : Bytes) (pSpy process : Bool) :
    o.write zl ansi toWrite pSpy process = o.write zl (fun _ => []) toWrite pSpy process := by
  unfold OutSock.write
  rw [h, getColorCode_off ansi]

/-- `Socket::flush` on a socket with colour disabled does not depend on the
colour table. -/
theorem flush_colorOff {Z : Type} (zl : Zlib Z) (ansi : Nat → Bytes) (o : OutSock Z)
    (h : o.opts.color = NO_COLOR) : o.flush zl ansi = o.flush zl (fun _ => []) := by
  unfold OutSock.flush
  simp only [write_colorOff zl ansi o h]

/-- `Socket::flush` does not touch the options of the socket. -/
theorem flush_opts {Z : Type} (zl : Zlib Z) (ansi : Nat → Bytes) (o o1 : OutSock Z)
    (h : o.flush zl ansi = some o1) : o1.opts = o.opts := by
  unfold OutSock.flush at h
  split at h
  · cases hw : o.write zl ansi o.processedOutput false false with
    | none => rw [hw] at h; exact absurd h (by simp)
    | some r =>
      rw [hw] at h
      simp only [Option.map_some', Option.some.injEq] at h
      rw [← h]
      exact write_opts zl ansi o _ _ _ r hw
  · cases hw : o.write zl ansi o.output true true with
    | none => rw [hw] at h; exact absurd h (by simp)
    | some r =>
      obtain ⟨o2, n⟩ := r
      rw [hw] at h
      have h2 := write_opts zl ansi o _ _ _ _ hw
      simp only at h
      split at h
      · injection h with h; rw [← h]; exact h2
      · injection h with h; rw [← h]; exact h2

/-- Repeated `flush` on a socket with colour disabled does not depend on the
colour table. -/
theorem flushes_colorOff {Z : Type} (zl : Zlib Z) (ansi : Nat → Bytes) (n : Nat) :
    ∀ o : OutSock Z, o.opts.color = NO_COLOR →
      OutSock.flushes zl ansi n o = OutSock.flushes zl (fun _ => []) n o := by
  induction n with
  | zero => intro o _; rfl
  | succ n ih =>
    intro o h
    rw [OutSock.flushes, OutSock.flushes, flush_colorOff zl ansi o h]
    cases hf : o.flush zl (fun _ => []) with
    | none => rfl
    | some o1 =>
      have ho := flush_opts zl _ o o1 hf
      exact ih o1 (by rw [ho]; exact h)

/-- C11 (the code at the failing input). The queued output is "abcdef"; the
transport accepts 2 bytes and then reports would-block.  The first `flush`
leaves "cdef" in `processedOutput`.  The retry meets would-block again: after
`written = -2` the test `written >= total`, made in `size_t`, holds, and since
`process` is false `processedOutput.erase()` drops "cdef".  A third `flush`, on
a ready transport, has nothing left to send: the transport received "ab" only.
Last, with a NUL in the output (`a` NUL `b` `c`, one byte accepted) the
assignment `processedOutput = str + written` stores the empty C string. -/
theorem flush_retry_drops : ∀ ansi : Nat → Bytes,
    (({ OutSock.fresh () [.accept 2, .wouldBlock, .wouldBlock] with output := str "abcdef" }
        : OutSock Unit).flushes storedZlib ansi 1).map
        (fun o => (o.mccp.fd.sent, o.processedOutput, o.output)) = some (str "ab", str "cdef", []) ∧
    (({ OutSock.fresh () [.accept 2, .wouldBlock, .wouldBlock] with output := str "abcdef" }
        : OutSock Unit).flushes storedZlib ansi 2).map
        (fun o => (o.mccp.fd.sent, o.processedOutput, o.output)) = some (str "ab", [], []) ∧
    (({ OutSock.fresh () [.accept 2, .wouldBlock, .wouldBlock] with output := str "abcdef" }
        : OutSock Unit).flushes storedZlib ansi 3).map
        (fun o => (o.mccp.fd.sent, o.processedOutput, o.output, o.mccp.fd.answers))
      = some (str "ab", [], [], []) ∧
    (({ OutSock.fresh () [.accept 1, .wouldBlock] with output := [97, 0, 98, 99] }
        : OutSock Unit).flushes storedZlib ansi 1).map
        (fun o => (o.mccp.fd.sent, o.processedOutput, o.output)) = some ([97], [], []) := by
  intro ansi
  refine ⟨?_, ?_, ?_, ?_⟩
  · rw [flushes_colorOff storedZlib ansi 1 _ rfl]; decide
  · rw [flushes_colorOff storedZlib ansi 2 _ rfl]; decide
  · rw [flushes_colorOff storedZlib ansi 3 _ rfl]; decide
  · rw [flushes_colorOff storedZlib ansi 1 _ rfl]; decide

/-- C20 (the code at the failing input). An uncompressed write of "hello" to a
transport that accepts 2 bytes and then reports would-block: the transport has
received "he", `UnCompressedBytes` has grown by 2, and `OutBytes`, to which the
marker value -2 of `written` is added, has dropped from 0 to -2. -/
theorem write_wouldBlock_counters : ∀ ansi : Nat → Bytes,
    ((OutSock.fresh () [.accept 2, .wouldBlock]).write storedZlib ansi (str "hello") true true).map
        (fun r => (r.1.mccp.fd.sent, r.1.OutBytes, r.1.UnCompressedBytes, r.2))
      = some (str "he", -2, 2, -2) := by
  intro ansi
  rw [write_colorOff storedZlib ansi _ rfl]
  decide

/-- C22 (the code at the failing input). A GMCP block whose payload holds an
escaped 255 (`IAC IAC`): the state NEG_SB_GMCP_END pushes the second IAC into
`cmdInBuf`, and `IAC SE` returns to NEG_NONE without clearing the buffer, so
the byte 255 is still pending when the machine is idle again. -/
theorem processInput_gmcp_leaves_byte :
    (processInputDecode 0 [IAC, SB, TELOPT_GMCP, 97, IAC, IAC, 98, IAC, SE] reset).map
        (fun r => (r.1.tState, r.1.oneIAC, r.1.watchBrokenClient, r.1.cmdInBuf))
      = some (TState.NEG_NONE, false, false, [255]) := by
  decide

/-- C23 (the code at the failing input). `IAC DO COMPRESS2` starts the
compression (mode 2, compressing).  When `IAC DONT COMPRESS2` follows and
`deflate(Z_FINISH)` does not report `Z_STREAM_END`, `negotiate` has already
set the mode to 0 and `endCompress` returns before it clears the flag: the
socket is compressing with mode 0. -/
theorem negotiate_compressing_without_mode :
    (processInputDecode 0 [IAC, DO, TELOPT_COMPRESS2] reset).map
        (fun r => (r.1.opts.compressing, r.1.opts.mccp)) = some (true, 2) ∧
    ((processInputDecode 0 [IAC, DO, TELOPT_COMPRESS2] reset).bind
        (fun r => processInputDecode 0 [IAC, DONT, TELOPT_COMPRESS2]
          { r.1 with zlibOk := false })).map
        (fun r => (r.1.opts.compressing, r.1.opts.mccp)) = some (true, 0) := by
  constructor <;> decide

/-- C25 (the code at the failing input). With MSDP enabled, the block
`VAR "A" VAL "1" VAR "B" VAL "2"` dispatches the pairs ("A", "1") and
("AB", "2"): `val` is erased at every VAL, `var` is never erased, so the second
name is appended to the first. -/
theorem parseMsdp_name_accumulates :
    (processInputDecode 0
        ([IAC, SB, TELOPT_MSDP, MSDP_VAR] ++ str "A" ++ [MSDP_VAL] ++ str "1" ++
          [MSDP_VAR] ++ str "B" ++ [MSDP_VAL] ++ str "2" ++ [IAC, SE]) msdpOn).map
        (fun r => r.1.calls)
      = some [Effect.processMsdpVarVal (str "A") (str "1"),
              Effect.processMsdpVarVal (str "AB") (str "2")] := by
  decide

/-- C26 (the code at the failing input). A NAWS block with the undoubled
value byte 255 in position c1.  In one read the columns and rows are those of
the doubled block (65360 and 24).  When the read ends directly after the 255,
the next read starts with the index stepped back to -1: the byte in front of
the read buffer (here 0) is stored as the high byte and the columns are 80. -/
theorem processInput_naws_split_reads_before_buffer :
    (processReads 0 reset [[IAC, SB, TELOPT_NAWS, 255, 255, 80, 0, 24, IAC, SE]]).map
        (fun r => (r.term.cols, r.term.rows)) = some (65360, 24) ∧
    (processReads 0 reset [[IAC, SB, TELOPT_NAWS, 255, 80, 0, 24, IAC, SE]]).map
        (fun r => (r.term.cols, r.term.rows)) = some (65360, 24) ∧
    (processReads 0 reset [[IAC, SB, TELOPT_NAWS, 255], [80, 0, 24, IAC, SE]]).map
        (fun r => (r.term.cols, r.term.rows)) = some (80, 24) ∧
    (processReads 7 reset [[IAC, SB, TELOPT_NAWS, 255], [80, 0, 24, IAC, SE]]).map
        (fun r => (r.term.cols, r.term.rows)) = some (7 * 256 + 80, 24) := by
  refine ⟨by decide, by decide, by decide, by decide⟩

/-! ## `needsPrompt` and `stripTelnet` -/

/-- The loops of `needsPrompt` and `stripTelnet` skip the same sequences: the
first reports a byte exactly where the second copies one. -/
theorem needsPromptLoop_iff (fuel : Nat) :
    ∀ inStr : Bytes, needsPromptLoop fuel inStr = true ↔ stripTelnetLoop fuel inStr ≠ [] := by
  induction fuel with
  | zero => intro inStr; simp [needsPromptLoop, stripTelnetLoop]
  | succ fuel ih =>
    intro inStr
    cases inStr with
    | nil => simp [needsPromptLoop, stripTelnetLoop]
    | cons c rest =>
      rw [needsPromptLoop, stripTelnetLoop]
      split_ifs <;> first | exact ih _ | simp

/-- The loop of `needsPrompt` has ended within `n` iterations: more fuel does
not change its result. -/
theorem needsPromptLoop_fuel (fuel : Nat) (inStr : Bytes) (hf : inStr.length ≤ fuel) :
    needsPromptLoop fuel inStr = needsPrompt inStr := by
  rw [Bool.eq_iff_iff, needsPrompt, needsPromptLoop_iff, needsPromptLoop_iff,
    stripTelnetLoop_fuel fuel inStr hf, stripTelnetLoop_fuel inStr.length inStr (le_refl _)]

/-- C29. For every byte string, `Socket::needsPrompt` is true if and only if
`Socket::stripTelnet` returns a non-empty string. -/
theorem needsPrompt_iff_stripTelnet (inStr : Bytes) :
    needsPrompt inStr = true ↔ stripTelnet inStr ≠ [] :=
  needsPromptLoop_iff inStr.length inStr
/-! ## The lookahead of the output encoder -/

/-- C28 (the code at the failing input). For the text `a^` of length 2,
`parseForOutput` reads the positions 0, 1 and 2: the lookahead after the caret
indexes the position at the end of the text. -/
theorem parseForOutput_reads_past_end :
    parseForOutputReads (str "a^") ((str "a^").length + 1) 0 false = [0, 1, 2] ∧
    (str "a^").length = 2 := by
  decide

/-! ## Reads and commands -/

/-- C30 (the code at the failing input). The stream `abc` CR LF `def` LF in one
read queues the commands "abc" and "def".  Split after the CR, the first read
queues "abc" and empties the buffer, so the LF that opens the second read is a
terminator of its own: the commands are "abc", "" and "def". -/
theorem processInput_split_crlf :
    processInputs 0 reset [] [str "abc\r\ndef\n"] = some (.ok reset [str "abc", str "def"]) ∧
    processInputs 0 reset [] [str "abc\r", str "\ndef\n"]
      = some (.ok reset [str "abc", [], str "def"]) := by
  constructor <;> decide

/-! ## `getMxpTag` -/

/-- Dropping what stands in front of a list. -/
theorem drop_front (a key rest : Bytes) :
    (a ++ key ++ rest).drop (a.length + key.length) = rest := by
  rw [← List.length_append]
  exact List.drop_left' rfl

/-- The `while` of `getMxpTag` on a run that is followed by another character
returns the run. -/
theorem getMxpTagRun_terminated (run : Bytes) (t : Nat) (rest : Bytes)
    (hrun : ∀ c ∈ run, c = 46 ∨ isdigit c = true ∨ isalpha c = true)
    (ht : ¬ (t = 46 ∨ isdigit t = true ∨ isalpha t = true)) :
    ∀ acc, getMxpTagRun acc (run ++ t :: rest) = some (acc ++ run) := by
  induction run with
  | nil => intro acc; simp [getMxpTagRun, ht]
  | cons c run ih =>
    intro acc
    have hc := hrun c (List.mem_cons_self c run)
    rw [List.cons_append, getMxpTagRun, if_pos hc,
      ih (fun x hx => hrun x (List.mem_cons_of_mem c hx))]
    simp

/-- The `while` of `getMxpTag` on a run that reaches the end of the text gives
nothing. -/
theorem getMxpTagRun_unterminated (run : Bytes)
    (hrun : ∀ c ∈ run, c = 46 ∨ isdigit c = true ∨ isalpha c = true) :
    ∀ acc, getMxpTagRun acc run = none := by
  induction run with
  | nil => intro acc; rfl
  | cons c run ih =>
    intro acc
    have hc := hrun c (List.mem_cons_self c run)
    rw [getMxpTagRun, if_pos hc]
    exact ih (fun x hx => hrun x (List.mem_cons_of_mem c hx)) _

/-- A character of a run is not the double quote. -/
theorem tagChar_ne_quote (c : Nat) (hc : c = 46 ∨ isdigit c = true ∨ isalpha c = true) :
    c ≠ 34 := by
  rintro rfl
  revert hc
  decide

/-- C24 (counterexample). The text `CLIENT=abc` contains the key `CLIENT=`,
followed by the run `abc` up to the end of the text: `getMxpTag` returns the
empty string, not `abc`. -/
theorem getMxpTag_unterminated_empty :
    getMxpTag (str "CLIENT=") (str "CLIENT=abc") = [] ∧
    getMxpTag (str "CLIENT=") (str "CLIENT=abc") ≠ str "abc" := by
  constructor <;> decide

/-- C24 (amended). Let the key first occur in the text after `a`, followed by
an optional double quote `q` and a run of alphanumeric-or-dot characters.  If
the run is followed by a further character `t` that is not one of them,
`getMxpTag` returns exactly the run; if the run reaches the end of the text it
returns the empty string; and it returns the empty string when the key does
not occur. -/
theorem getMxpTag_run (key a q run rest : Bytes) (t : Nat)
    (hq : q = [] ∨ q = [34]) (hq0 : q = [] → run = [] → t ≠ 34)
    (hrun : ∀ c ∈ run, c = 46 ∨ isdigit c = true ∨ isalpha c = true)
    (ht : ¬ (t = 46 ∨ isdigit t = true ∨ isalpha t = true)) :
    (find (a ++ key ++ (q ++ run ++ t :: rest)) key = some a.length →
      getMxpTag key (a ++ key ++ (q ++ run ++ t :: rest)) = run) ∧
    (find (a ++ key ++ (q ++ run)) key = some a.length →
      getMxpTag key (a ++ key ++ (q ++ run)) = []) ∧
    (∀ text, find text key = none → getMxpTag key text = []) := by
  refine ⟨fun hf => ?_, fun hf => ?_, fun text hf => ?_⟩
  · simp only [getMxpTag, hf, drop_front]
    rcases hq with rfl | rfl
    · cases run with
      | nil =>
        simp only [List.nil_append, if_neg (hq0 rfl rfl)]
        simp [getMxpTagRun, ht]
      | cons c run =>
        have hc := tagChar_ne_quote c (hrun c (List.mem_cons_self c run))
        simp only [List.nil_append, List.cons_append, if_neg hc]
        have h := getMxpTagRun_terminated (c :: run) t rest hrun ht []
        simp only [List.cons_append, List.nil_append] at h
        rw [h]; rfl
    · simp only [List.cons_append, List.nil_append, if_true]
      rw [getMxpTagRun_terminated run t rest hrun ht []]; rfl
  · simp only [getMxpTag, hf, drop_front]
    rcases hq with rfl | rfl
    · cases run with
      | nil => rfl
      | cons c run =>
        have hc := tagChar_ne_quote c (hrun c (List.mem_cons_self c run))
        simp only [List.nil_append, if_neg hc]
        rw [getMxpTagRun_unterminated (c :: run) hrun []]; rfl
    · simp only [List.cons_append, List.nil_append, if_true]
      rw [getMxpTagRun_unterminated run hrun []]; rfl
  · simp [getMxpTag, hf]

/-- C24 (witness): the attribute `CLIENT=mushclient` inside a tag. -/
theorem getMxpTag_run_witness :
    getMxpTag (str "CLIENT=") (str "<V " ++ str "CLIENT=" ++ ([] ++ str "mushclient" ++ 62 :: []))
      = str "mushclient" :=
  (getMxpTag_run (str "CLIENT=") (str "<V ") [] (str "mushclient") [] 62
    (Or.inl rfl) (fun _ h => absurd h (by decide)) (by decide) (by decide)).1 (by decide)

/-! ## Colour capability under input -/

theorem colourKept_refl (s : Socket) : ColourKept s s := ⟨Or.inl rfl, id⟩

theorem colourKept_trans {a b c : Socket} (h1 : ColourKept a b) (h2 : ColourKept b c) :
    ColourKept a c := by
  refine ⟨?_, fun h => h2.2 (h1.2 h)⟩
  rcases h2.1 with h | h
  · rcases h1.1 with h' | h'
    · exact Or.inl (h.trans h')
    · exact Or.inr (h.trans h')
  · exact Or.inr h

theorem watchStep_colourKept (s : Socket) (c : Nat) : ColourKept s (watchStep s c) := by
  simp only [watchStep]
  split_ifs <;> exact ⟨Or.inl rfl, id⟩

theorem ttypeEnd_colourKept (s : Socket) : ColourKept s (ttypeEnd s) := by
  simp only [ttypeEnd, Socket.write, Socket.call, ColourKept]
  split_ifs <;> simp

theorem parseMsdp_colourKept (s : Socket) : ColourKept s (parseMsdp s) := by
  simp only [parseMsdp, ColourKept]
  split_ifs <;> simp

theorem startCompress_colourKept (s : Socket) (silent : Bool) :
    ColourKept s (startCompress s silent) := by
  simp only [startCompress, Socket.write, Socket.call, ColourKept]
  split_ifs <;> simp

theorem endCompress_colourKept (s : Socket) : ColourKept s (endCompress s) := by
  simp only [endCompress, Socket.call, ColourKept]
  split_ifs <;> simp

/-- `negotiate` sets the colour level to `ANSI_COLOR` or leaves it, and does
not touch `xterm256`. -/
theorem negotiate_colourKept (s : Socket) (ch : Nat) : ColourKept s (negotiate s ch) := by
  by_cases hch : ch ∈ supportedOptions
  · have upd : ∀ (o : SockOptions), o.color = s.opts.color → o.xterm256 = s.opts.xterm256 →
        ColourKept s { s with opts := o } :=
      fun o h1 h2 => ⟨Or.inl h1, fun h => h2.trans h⟩
    have hsc := startCompress_colourKept
    have hec := endCompress_colourKept
    simp only [supportedOptions, List.mem_cons, List.mem_singleton, List.not_mem_nil,
      or_false] at hch
    cases s with
    | mk term opts tState oneIAC wbc cmdInBuf inBuf output pagerOutput paged oc z calls =>
      rcases hch with rfl | rfl | rfl | rfl | rfl | rfl | rfl | rfl | rfl | rfl | rfl | rfl
      · cases tState <;> simp [negotiate, ColourKept, Socket.write, Socket.call]
      · cases tState <;>
          simp [negotiate, ColourKept, continueTelnetNeg, Socket.write, Socket.call] <;>
          split <;> simp
      · cases tState <;> simp [negotiate, ColourKept, Socket.write, Socket.call]
      · cases tState <;> simp only [negotiate] <;> simp <;>
          first
            | exact ⟨Or.inl rfl, id⟩
            | exact colourKept_trans (upd _ rfl rfl) (hsc _ _)
            | (split
               · exact colourKept_trans (upd _ rfl rfl) (hec _)
               · exact ⟨Or.inl rfl, id⟩)
      · cases tState <;> simp only [negotiate] <;> simp <;>
          first
            | exact ⟨Or.inl rfl, id⟩
            | exact colourKept_trans (upd _ rfl rfl) (hsc _ _)
            | (split
               · exact colourKept_trans (upd _ rfl rfl) (hec _)
               · exact ⟨Or.inl rfl, id⟩)
      · cases tState <;> simp [negotiate, ColourKept]
      · simp [negotiate, ColourKept]
      · simp [negotiate, ColourKept]
      · simp [negotiate, ColourKept]
      · cases tState <;> simp [negotiate, ColourKept, Socket.call]
      · cases tState <;> simp [negotiate, ColourKept]
      · cases tState <;> simp [negotiate, ColourKept, Socket.call]
  · rw [negotiate_unsupported s ch hch]
    exact ⟨Or.inl rfl, id⟩

theorem negotiate_tState (s : Socket) (ch : Nat) : (negotiate s ch).tState = .NEG_NONE := rfl
/-- Outside the MXP-secure states, and with ESC not read in the state
NEG_NONE, the switch keeps the colour capability and stays outside those
states. -/
theorem switchStep_colourKept (s : Socket) (tmp : Bytes) (c : Nat)
    (hns : s.tState.mxpSecure = false) (hc : c ≠ ESC ∨ s.tState ≠ .NEG_NONE) :
    ColourKept s (switchStep s tmp c).1 ∧ (switchStep s tmp c).1.tState.mxpSecure = false := by
  have hn := negotiate_colourKept s c
  have hnt := negotiate_tState s c
  have hm := parseMsdp_colourKept s
  have ht := ttypeEnd_colourKept s
  cases hts : s.tState <;> rw [hts] at hns hc <;>
    first
      | exact absurd hns (by decide)
      | (simp only [switchStep, hts, handleNaws]
         (repeat' split) <;>
         first
           | exact ⟨⟨Or.inl rfl, id⟩, rfl⟩
           | exact ⟨hn, by rw [hnt]; rfl⟩
           | exact ⟨hm, rfl⟩
           | exact ⟨ht, rfl⟩
           | exact ⟨⟨Or.inl rfl, id⟩, (congrArg TState.mxpSecure hts).trans rfl⟩
           | (rcases hc with hc | hc
              · contradiction
              · exact absurd rfl hc))

/-- One pass of the loop body keeps the colour capability, under the
conditions of `switchStep_colourKept`. -/
theorem bodyStep_colourKept (s : Socket) (tmp : Bytes) (c : Nat)
    (hns : s.tState.mxpSecure = false) (hc : c ≠ ESC ∨ s.tState ≠ .NEG_NONE) :
    ColourKept s (bodyStep (s, tmp) c).1 ∧ (bodyStep (s, tmp) c).1.tState.mxpSecure = false := by
  have h1 := watchStep_colourKept s c
  have h2 : (watchStep s c).tState.mxpSecure = false := by
    simp only [watchStep]
    split_ifs <;> first | exact hns | rfl
  have h3 : c ≠ ESC ∨ (watchStep s c).tState ≠ .NEG_NONE := by
    rcases hc with hc | hc
    · exact Or.inl hc
    · right
      simp only [watchStep]
      split_ifs <;> first | exact hc | simp
  obtain ⟨h4, h5⟩ := switchStep_colourKept (watchStep s c) tmp c h2 h3
  exact ⟨colourKept_trans h1 h4, h5⟩
/-- The colour level after one pass of the loop body is the level before or
`ANSI_COLOR`, in every state and for every byte. -/
theorem bodyStep_colour (s : Socket) (tmp : Bytes) (c : Nat) :
    (bodyStep (s, tmp) c).1.opts.color = s.opts.color ∨
      (bodyStep (s, tmp) c).1.opts.color = ANSI_COLOR := by
  by_cases h : (watchStep s c).tState.mxpSecure = false ∧
      (c ≠ ESC ∨ (watchStep s c).tState ≠ .NEG_NONE)
  · have h1 := watchStep_colourKept s c
    exact (colourKept_trans h1 (switchStep_colourKept (watchStep s c) tmp c h.1 h.2).1).1
  · left
    have hw : (watchStep s c).opts = s.opts := by
      simp only [watchStep]
      split_ifs <;> rfl
    rw [← hw]
    simp only [bodyStep]
    generalize watchStep s c = w at h
    cases hts : w.tState <;> rw [hts] at h <;>
      first
        | (exfalso; apply h; constructor
           · decide
           · right; decide)
        | (simp only [switchStep, hts, parseMXPSecure]
           (repeat' split) <;> rfl)

/-- A property of the socket that a pass of the loop body keeps, for a byte of
the read or in the pass that follows a rewind, holds after the loop. -/
theorem processInputLoop_inv_bytes (P : Socket → Prop) (Q : Nat → Prop)
    (hP : ∀ s tmp c, P s → (Q c ∨ ∃ c0, rewinds s c0 = true) → P (bodyStep (s, tmp) c).1)
    (pre : Nat) (buf : Bytes) (hQ : ∀ c ∈ buf, Q c) (fuel : Nat) :
    ∀ (k : Nat) (st r : Socket × Bytes),
      processInputLoop pre buf fuel (k : Int) st = some r → P st.1 → P r.1 := by
  induction fuel with
  | zero =>
    intro k st r h h0
    simp only [processInputLoop] at h
    split at h
    · exact absurd h (by simp)
    · simp only [Option.some.injEq] at h
      subst h; exact h0
  | succ f ih =>
    intro k st r h h0
    simp only [processInputLoop] at h
    split at h
    · rename_i hlt
      have hk : k < buf.length := by exact_mod_cast hlt
      by_cases hr : rewinds st.1 (tmpBufAt pre buf (k : Int)) = true
      · simp only [hr, if_true] at h
        have e : ((k : Int) - 1 + 1) = (k : Int) := by omega
        rw [e] at h
        exact ih k _ r h (hP st.1 st.2 _ h0 (Or.inr ⟨_, hr⟩))
      · simp only [hr, Bool.false_eq_true, if_false] at h
        have e : ((k : Int) + 1) = ((k + 1 : Nat) : Int) := by push_cast; rfl
        rw [e] at h
        refine ih (k + 1) _ r h (hP st.1 st.2 _ h0 (Or.inl ?_))
        rw [tmpBufAt_nat]
        have hg : buf.getD k 0 = buf[k] := by
          simp [List.getD_eq_getElem?_getD, List.getElem?_eq_getElem hk]
        rw [hg]
        exact hQ _ (List.getElem_mem hk)
    · simp only [Option.some.injEq] at h
      subst h; exact h0

/-- A rewind happens in one of the NAWS states only. -/
theorem rewinds_state (s : Socket) (c : Nat) (h : rewinds s c = true) :
    s.tState.mxpSecure = false ∧ s.tState ≠ .NEG_NONE := by
  simp only [rewinds, Bool.and_eq_true, decide_eq_true_eq] at h
  obtain ⟨⟨⟨_, h1⟩, h2⟩, _⟩ := h
  rcases naws_state_cases s.tState h1 h2 with e | e | e | e <;> rw [e] <;> decide

/-- C21 (counterexample). MXP is enabled by `IAC DO MXP` and the TTYPE response
`xterm-256color` sets `xterm256`; the MXP-secure line that names the client
mushclient in version 3.0 then sets `xterm256` back to false. -/
theorem processInput_xterm256_lowered :
    (processReads 0 reset
        [[IAC, DO, TELOPT_MXP], ttypeResponse (str "xterm-256color")]).map
        (fun r => r.opts.xterm256) = some true ∧
    (processReads 0 reset
        [[IAC, DO, TELOPT_MXP], ttypeResponse (str "xterm-256color"),
         [ESC] ++ str "[1z<VERSION CLIENT=mushclient VERSION=3.0>\n"]).map
        (fun r => r.opts.xterm256) = some false := by
  constructor <;> decide

/-- C21 (amended). For every read and every state of the socket the state
machine ends, and the colour level afterwards is the level before or
`ANSI_COLOR`, so a level up to `ANSI_COLOR` is never lowered.  If moreover the
machine is not inside an MXP-secure sequence and the read holds no ESC (no
MXP-secure line is parsed), `xterm256` is still set afterwards if it was set
before. -/
theorem processInput_colour_kept (pre : Nat) (buf : Bytes) (s : Socket) :
    ∃ r, processInputDecode pre buf s = some r ∧
      (r.1.opts.color = s.opts.color ∨ r.1.opts.color = ANSI_COLOR) ∧
      (s.opts.color ≤ ANSI_COLOR → s.opts.color ≤ r.1.opts.color) ∧
      (s.tState.mxpSecure = false → ESC ∉ buf → s.opts.xterm256 = true →
        r.1.opts.xterm256 = true) := by
  obtain ⟨r, hr⟩ := processInputDecode_some pre buf s
  have hcol : r.1.opts.color = s.opts.color ∨ r.1.opts.color = ANSI_COLOR := by
    refine processInputLoop_inv
      (fun x => x.opts.color = s.opts.color ∨ x.opts.color = ANSI_COLOR) ?_
      pre buf _ 0 (s, []) r hr (Or.inl rfl)
    intro x tmp c hx
    rcases bodyStep_colour x tmp c with h | h
    · rcases hx with hx | hx
      · exact Or.inl (h.trans hx)
      · exact Or.inr (h.trans hx)
    · exact Or.inr h
  refine ⟨r, hr, hcol, fun hle => ?_, fun hns hesc hx => ?_⟩
  · rcases hcol with h | h
    · rw [h]
    · rw [h]; exact hle
  · have key := processInputLoop_inv_bytes
      (fun x => ColourKept s x ∧ x.tState.mxpSecure = false) (fun c => c ≠ ESC) ?_
      pre buf (fun c hc e => hesc (e ▸ hc)) (2 * buf.length) 0 (s, []) r
      (by simpa [processInputDecode] using hr) ⟨colourKept_refl s, hns⟩
    · exact key.1.2 hx
    · intro x tmp c hx hc
      have hc2 : c ≠ ESC ∨ x.tState ≠ .NEG_NONE := by
        rcases hc with hc | ⟨c0, hc⟩
        · exact Or.inl hc
        · exact Or.inr (rewinds_state x c0 hc).2
      obtain ⟨h1, h2⟩ := bodyStep_colourKept x tmp c hx.2 hc2
      exact ⟨colourKept_trans hx.1 h1, h2⟩

/-- C21 (witness): the TTYPE response `ansi` read by a socket on which
`xterm256` is set. -/
theorem processInput_colour_kept_witness :
    ∃ r, processInputDecode 0 (ttypeResponse (str "ansi"))
        { reset with opts := { reset.opts with xterm256 := true } } = some r ∧
      r.1.opts.xterm256 = true := by
  obtain ⟨r, hr, _, _, h⟩ := processInput_colour_kept 0 (ttypeResponse (str "ansi"))
    { reset with opts := { reset.opts with xterm256 := true } }
  exact ⟨r, hr, h (by decide) (by decide) rfl⟩

/-! ## Termination of the state machine -/

/-- The traced loop computes what the loop computes. -/
theorem processInputTrace_fst (pre : Nat) (buf : Bytes) (fuel : Nat) :
    ∀ (i : Int) (st : Socket × Bytes),
      (processInputTrace pre buf fuel i st).map Prod.fst = processInputLoop pre buf fuel i st := by
  induction fuel with
  | zero =>
    intro i st
    simp only [processInputTrace, processInputLoop]
    split <;> rfl
  | succ f ih =>
    intro i st
    simp only [processInputTrace, processInputLoop]
    split
    · rw [← ih, Option.map_map]
      rfl
    · rfl

/-- The indices read by the loop from the index `k` on: none lies below
`k - 1`, the index `k - 1` is read at most once (and not at all unless a rewind
is pending), no index is read more than twice, every index from `k` on is
read, and there are no more passes than fuel. -/
theorem processInputTrace_spec (pre : Nat) (buf : Bytes) (fuel : Nat) :
    ∀ (k : Nat) (st r : Socket × Bytes) (idx : List Int), k ≤ buf.length →
      processInputTrace pre buf fuel (k : Int) st = some (r, idx) →
      (∀ j ∈ idx, (k : Int) - 1 ≤ j) ∧
      ((∀ c, rewinds st.1 c = false) → ∀ j ∈ idx, (k : Int) ≤ j) ∧
      idx.count ((k : Int) - 1) ≤ 1 ∧
      (∀ j, idx.count j ≤ 2) ∧
      (∀ j : Nat, k ≤ j → j < buf.length → (j : Int) ∈ idx) ∧
      idx.length ≤ fuel := by
  induction fuel with
  | zero =>
    intro k st r idx hk h
    simp only [processInputTrace] at h
    split at h
    · exact absurd h (by simp)
    · rename_i hge
      simp only [Option.some.injEq, Prod.mk.injEq] at h
      obtain ⟨_, rfl⟩ := h
      have hkn : ¬ k < buf.length := fun hlt => hge (by exact_mod_cast hlt)
      exact ⟨by simp, by simp, by simp, by simp, fun j h1 h2 => absurd (by omega) hkn, by simp⟩
  | succ f ih =>
    intro k st r idx hk h
    simp only [processInputTrace] at h
    split at h
    · rename_i hlt
      have hkn : k < buf.length := by exact_mod_cast hlt
      by_cases hr : rewinds st.1 (tmpBufAt pre buf (k : Int)) = true
      · simp only [hr, if_true] at h
        have e : ((k : Int) - 1 + 1) = (k : Int) := by omega
        rw [e] at h
        cases hrec : processInputTrace pre buf f (k : Int)
            (bodyStep st (tmpBufAt pre buf ((k : Int) - 1))) with
        | none => rw [hrec] at h; exact absurd h (by simp)
        | some p =>
          obtain ⟨r', idx'⟩ := p
          rw [hrec] at h
          simp only [Option.map_some', Option.some.injEq, Prod.mk.injEq] at h
          obtain ⟨rfl, rfl⟩ := h
          obtain ⟨a, b, _, d, e', g⟩ := ih k _ r' idx' hk hrec
          have b' := b (rewinds_bodyStep st _ _ hr)
          have hz : idx'.count ((k : Int) - 1) = 0 :=
            List.count_eq_zero_of_not_mem (fun hm => by have := b' _ hm; omega)
          refine ⟨?_, ?_, ?_, ?_, ?_, ?_⟩
          · intro j hj
            rcases List.mem_cons.mp hj with rfl | hj
            · exact le_refl _
            · exact a j hj
          · intro hn
            rw [hn] at hr
            exact absurd hr (by simp)
          · rw [List.count_cons_self, hz]
          · intro j
            by_cases hj : j = (k : Int) - 1
            · subst hj
              rw [List.count_cons_self, hz]
              omega
            · rw [List.count_cons_of_ne hj]
              exact d j
          · intro j h1 h2
            exact List.mem_cons_of_mem _ (e' j h1 h2)
          · simp only [List.length_cons]
            omega
      · simp only [hr, Bool.false_eq_true, if_false] at h
        have e : ((k : Int) + 1) = ((k + 1 : Nat) : Int) := by push_cast; rfl
        rw [e] at h
        cases hrec : processInputTrace pre buf f ((k + 1 : Nat) : Int)
            (bodyStep st (tmpBufAt pre buf (k : Int))) with
        | none => rw [hrec] at h; exact absurd h (by simp)
        | some p =>
          obtain ⟨r', idx'⟩ := p
          rw [hrec] at h
          simp only [Option.map_some', Option.some.injEq, Prod.mk.injEq] at h
          obtain ⟨rfl, rfl⟩ := h
          obtain ⟨a, _, c, d, e', g⟩ := ih (k + 1) _ r' idx' (by omega) hrec
          have a' : ∀ j ∈ idx', (k : Int) ≤ j := fun j hj => by
            have := a j hj
            push_cast at this
            omega
          have c' : idx'.count (k : Int) ≤ 1 := by
            have e2 : (((k + 1 : Nat) : Int) - 1) = (k : Int) := by push_cast; omega
            rw [e2] at c
            exact c
          have hz : idx'.count ((k : Int) - 1) = 0 :=
            List.count_eq_zero_of_not_mem (fun hm => by have := a' _ hm; omega)
          refine ⟨?_, ?_, ?_, ?_, ?_, ?_⟩
          · intro j hj
            rcases List.mem_cons.mp hj with rfl | hj
            · omega
            · have := a' j hj
              omega
          · intro _ j hj
            rcases List.mem_cons.mp hj with rfl | hj
            · exact le_refl _
            · exact a' j hj
          · rw [List.count_cons_of_ne (by omega), hz]
            omega
          · intro j
            by_cases hj : j = (k : Int)
            · subst hj
              rw [List.count_cons_self]
              omega
            · rw [List.count_cons_of_ne hj]
              exact d j
          · intro j h1 h2
            by_cases hj : j = k
            · subst hj
              exact List.mem_cons_self _ _
            · exact List.mem_cons_of_mem _ (e' j (by omega) h2)
          · simp only [List.length_cons]
            omega
    · rename_i hge
      simp only [Option.some.injEq, Prod.mk.injEq] at h
      obtain ⟨_, rfl⟩ := h
      have hkn : ¬ k < buf.length := fun hlt => hge (by exact_mod_cast hlt)
      exact ⟨by simp, by simp, by simp, by simp, fun j h1 h2 => absurd (by omega) hkn, by simp⟩

/-- C27. For every read, every byte in front of the read buffer and every
state of the socket, the state-machine loop of `Socket::processInput` ends
within `2 n` passes with all `n` bytes consumed: every position of the read is
examined by the loop body, and no position is examined more than twice. -/
theorem processInput_terminates (pre : Nat) (buf : Bytes) (s : Socket) :
    ∃ r idx, processInputTrace pre buf (2 * buf.length) 0 (s, []) = some (r, idx) ∧
      processInputDecode pre buf s = some r ∧
      (∀ j : Nat, j < buf.length → (j : Int) ∈ idx) ∧
      (∀ j, idx.count j ≤ 2) ∧
      idx.length ≤ 2 * buf.length := by
  obtain ⟨r, hr⟩ := processInputDecode_some pre buf s
  have hf := processInputTrace_fst pre buf (2 * buf.length) 0 (s, [])
  rw [processInputDecode] at hr
  rw [hr] at hf
  cases ht : processInputTrace pre buf (2 * buf.length) 0 (s, []) with
  | none => rw [ht] at hf; exact absurd hf (by simp)
  | some p =>
    obtain ⟨r', idx⟩ := p
    rw [ht] at hf
    simp only [Option.map_some', Option.some.injEq] at hf
    subst hf
    obtain ⟨_, _, _, d, e, g⟩ :=
      processInputTrace_spec pre buf (2 * buf.length) 0 (s, []) r' idx (by omega)
        (by simpa using ht)
    exact ⟨r', idx, rfl, by rw [processInputDecode]; exact hr, fun j hj => e j (by omega) hj, d, g⟩

end Realms
